import Mathlib

/-!
Verification of the Engage-to-iCal generator (`scripts/generate_ical.py`).

The script fetches a paginated JSON event feed and converts it into an
RFC 5545 VCALENDAR document.  We give a shallow embedding of its pure
core: Python strings are `List Char`; every helper of the script
(`zulu`, `escape_ical`, `strip_html`, `fetch_all_events`, `to_vevent`,
and the assembly in `main`) is translated into an executable Lean
function.  Library routines the script calls (`dateutil.parser.isoparse`,
`html.unescape`, `str.split`, `str.replace`, `datetime.astimezone`,
`strftime`, and the text-mode newline translation of `open`) are
modelled from their documented behaviour; each model carries a comment
stating exactly which part of the library behaviour it covers.

Scanning functions that are not structurally recursive are written with
an explicit fuel argument (initialised with the input length) so that
every definition reduces in the kernel and concrete instances can be
settled by `decide`.
-/

/-- Python strings are modelled as lists of characters. -/
abbrev Str := List Char

deriving instance DecidableEq for Except

/-- Boolean prefix test on character lists (used to express "a FOO line"). -/
def pfx : Str → Str → Bool
  | [], _ => true
  | _ :: _, [] => false
  | a :: p, b :: q => if a = b then pfx p q else false

/-- Map each character to a replacement string and concatenate.
`str.replace(old, new)` with a one-character `old` is an instance. -/
def strJoinMap (f : Char → Str) : Str → Str
  | [] => []
  | c :: r => f c ++ strJoinMap f r

/-- Python `text.replace(c, r)` for a single-character pattern `c`:
every occurrence of `c` is replaced by `r`, and replacements are not
rescanned (Python scans the original string left to right). -/
def replace1 (c : Char) (r : Str) (s : Str) : Str :=
  strJoinMap (fun x => if x = c then r else [x]) s

/-- `escape_ical` from the script: guard for falsy input, then the chain
`.replace("\\","\\\\").replace(",","\\,").replace(";","\\;").replace("\n","\\n")`,
innermost (backslash) first. -/
def escape_ical (text : Str) : Str :=
  if text = [] then []
  else
    replace1 '\n' ("\\n".toList)
      (replace1 ';' ("\\;".toList)
        (replace1 ',' ("\\,".toList)
          (replace1 '\\' ("\\\\".toList) text)))

/-- The per-character effect of the full `escape_ical` substitution chain. -/
def escChar (c : Char) : Str :=
  if c = '\\' then ['\\', '\\']
  else if c = ',' then ['\\', ',']
  else if c = ';' then ['\\', ';']
  else if c = '\n' then ['\\', 'n']
  else [c]

/-- Modelled from the spec: "the inverse unescaping" of the iCal escaping.
Reads the text left to right; a backslash followed by `\\`, `,`, `;` or `n`
decodes to the escaped character, any other backslash pair is kept verbatim. -/
def unescape_ical : Str → Str
  | [] => []
  | c :: rest =>
    if c = '\\' then
      match rest with
      | [] => ['\\']
      | d :: rest2 =>
        (if d = '\\' then ['\\']
         else if d = ',' then [',']
         else if d = ';' then [';']
         else if d = 'n' then ['\n']
         else ['\\', d]) ++ unescape_ical rest2
    else c :: unescape_ical rest

/-- The ASCII characters Python's `str.split()` / `str.strip()` treat as
whitespace: space, `\t`, `\n`, `\r`, vertical tab, form feed, and the
file/group/record/unit separators `\x1c`–`\x1f`.  (Unicode whitespace is
not modelled: in `strip_html` these functions run after the ASCII
filter; `locOf`'s strip of raw address fields could additionally see
non-ASCII whitespace, which no theorem below exercises.) -/
def isPySpace (c : Char) : Bool :=
  c = ' ' || c = '\t' || c = '\n' || c = '\r' || c = Char.ofNat 11 ||
    c = Char.ofNat 12 || (28 ≤ c.toNat && c.toNat ≤ 31)

/-- Negation of `isPySpace`, used by the word splitter. -/
def nonSp (c : Char) : Bool := !isPySpace c

/-- Python `s.strip()`: drop leading and trailing whitespace. -/
def pyStrip (s : Str) : Str :=
  ((s.dropWhile isPySpace).reverse.dropWhile isPySpace).reverse

/-- Python `s.split()` (no argument): split on runs of whitespace,
discarding empty pieces.  Fuel-driven scan; `pySplit` supplies `s.length`. -/
def pySplitF : Nat → Str → List Str
  | 0, _ => []
  | fuel + 1, s =>
    match s with
    | [] => []
    | c :: rest =>
      if isPySpace c then pySplitF fuel rest
      else (c :: rest.takeWhile nonSp) :: pySplitF fuel (rest.dropWhile nonSp)

/-- Python `s.split()`. -/
def pySplit (s : Str) : List Str := pySplitF s.length s

/-- `" ".join(ws)`. -/
def joinSpace : List Str → Str
  | [] => []
  | [w] => w
  | w :: ws => w ++ ' ' :: joinSpace ws

/-- `" ".join(text.split()).strip()` — the whitespace collapse of `strip_html`. -/
def collapseWs (s : Str) : Str := pyStrip (joinSpace (pySplit s))

/-- `text.encode('ascii', 'ignore').decode()`: drop every character outside
the 7-bit ASCII range. -/
def asciiFilter (s : Str) : Str := s.filter (fun c => decide (c.toNat < 128))

/-- Skip to just after the first `>` of the list, if any. -/
def afterGt : Str → Option Str
  | [] => none
  | c :: rest => if c = '>' then some rest else afterGt rest

/-- Scan for the end of a `<[^>]+>` match started by a consumed `<`:
at least one non-`>` character followed by `>`; returns the remainder
after the closing `>`, or `none` when the regex does not match here. -/
def tagEnd : Str → Option Str
  | [] => none
  | c :: rest => if c = '>' then none else afterGt rest

/-- `re.sub(r'<[^>]+>', '', s)`: leftmost non-overlapping removal of tag
spans.  At a `<`, the greedy `[^>]+` runs to the first later `>` (requiring
at least one character in between); unmatched characters are kept.
Fuel-driven; `stripTags` supplies `s.length`. -/
def stripTagsF : Nat → Str → Str
  | 0, s => s
  | fuel + 1, s =>
    match s with
    | [] => []
    | c :: rest =>
      if c = '<' then
        match tagEnd rest with
        | some r => stripTagsF fuel r
        | none => '<' :: stripTagsF fuel rest
      else c :: stripTagsF fuel rest

/-- `re.sub(r'<[^>]+>', '', s)`. -/
def stripTags (s : Str) : Str := stripTagsF s.length s

/-- No re-scan of the text can find a fresh `<[^>]+>` match: wherever a
`<` occurs, either `>` follows immediately (the regex needs a nonempty
middle) or no `>` occurs later.  This is the shape `stripTags` leaves its
output in, and it is stable under the ASCII filter and the whitespace
collapse — the key invariant for idempotence of the sanitizer. -/
def NoRetag (t : Str) : Prop :=
  ∀ post : Str, ('<' :: post) <:+ t → (post.head? = some '>' ∨ '>' ∉ post)

/-- Model of Python `html.unescape` restricted to the character references
`lt`, `gt`, `amp` and `nbsp`, each with and without the trailing semicolon
(the semicolon-less forms are in HTML5's legacy set, which `html.unescape`
also decodes).  Longer (semicolon) forms are tried first, as the library
takes the longest match.  Other character references, which the library
would also decode, are left verbatim by this model; no theorem below
depends on them.  Fuel-driven; `htmlUnescape` supplies `s.length`. -/
def htmlUnescapeF : Nat → Str → Str
  | 0, s => s
  | fuel + 1, s =>
    match s with
    | [] => []
    | c :: rest =>
      if c = '&' then
        if pfx ("lt;".toList) rest then '<' :: htmlUnescapeF fuel (rest.drop 3)
        else if pfx ("gt;".toList) rest then '>' :: htmlUnescapeF fuel (rest.drop 3)
        else if pfx ("amp;".toList) rest then '&' :: htmlUnescapeF fuel (rest.drop 4)
        else if pfx ("nbsp;".toList) rest then '\u00A0' :: htmlUnescapeF fuel (rest.drop 5)
        else if pfx ("lt".toList) rest then '<' :: htmlUnescapeF fuel (rest.drop 2)
        else if pfx ("gt".toList) rest then '>' :: htmlUnescapeF fuel (rest.drop 2)
        else if pfx ("amp".toList) rest then '&' :: htmlUnescapeF fuel (rest.drop 3)
        else if pfx ("nbsp".toList) rest then '\u00A0' :: htmlUnescapeF fuel (rest.drop 4)
        else '&' :: htmlUnescapeF fuel rest
      else c :: htmlUnescapeF fuel rest

/-- `html.unescape` (modelled subset, see `htmlUnescapeF`). -/
def htmlUnescape (s : Str) : Str := htmlUnescapeF s.length s

/-- `strip_html` from the script: falsy guard, tag removal, entity
decoding, ASCII filter, whitespace collapse. -/
def strip_html (html : Str) : Str :=
  if html = [] then []
  else collapseWs (asciiFilter (htmlUnescape (stripTags html)))

/-- Python `int()` applied to a short digit slice: the value when the slice
is nonempty and all digits, otherwise failure.  (`int`'s tolerance of
leading whitespace and signs inside a slice is not modelled; such inputs
are treated as parse failures.) -/
def decVal? (l : Str) : Option Nat :=
  if l = [] then none
  else if l.all Char.isDigit then
    some (l.foldl (fun a c => a * 10 + (c.toNat - 48)) 0)
  else none

/-- `int(timestr[pos:pos+2])`: one or two characters taken from the front
(one only at the very end of the string), consumed on success. -/
def take2 : Str → Option (Nat × Str)
  | [] => none
  | [a] => (decVal? [a]).map (fun v => (v, []))
  | a :: b :: r => (decVal? [a, b]).map (fun v => (v, r))

/-- `dateutil.parser.isoparser._parse_isodate_common`: 4-digit year, then
optionally month and day, in the extended (`-`-separated) or basic form.
Returns year, month, day and the unconsumed remainder.  The "uncommon"
fallback forms the library also accepts — ISO week dates (`YYYY-Www(-D)`)
and ordinal dates (`YYYY(-)DDD`) — and `int()`'s sign/whitespace leniency
are not modelled: this parser accepts a strict subset of the library's
inputs (with identical results on that subset), so theorems conditioned
on its success only speak about runs the program performs. -/
def parse_isodate (s : Str) : Option (Nat × Nat × Nat × Str) :=
  match s with
  | c1 :: c2 :: c3 :: c4 :: rest =>
    match decVal? [c1, c2, c3, c4] with
    | none => none
    | some y =>
      match rest with
      | [] => some (y, 1, 1, [])
      | r0 :: rtail =>
        let hasSep := r0 == '-'
        let r1 := if hasSep then rtail else rest
        match r1 with
        | m1 :: m2 :: r2 =>
          match decVal? [m1, m2] with
          | none => none
          | some mo =>
            match r2 with
            | [] => if hasSep then some (y, mo, 1, []) else none
            | x :: rr =>
              match (if hasSep then (if x = '-' then some rr else none) else some r2) with
              | none => none
              | some r3 =>
                match r3 with
                | d1 :: d2 :: r4 =>
                  match decVal? [d1, d2] with
                  | none => none
                  | some dd => some (y, mo, dd, r4)
                | _ => none
        | _ => none
  | _ => none

/-- Signed combination of a parsed `±HH[:MM]` offset into whole minutes,
with `_parse_tzstr`'s checks: a missing sign raises; a zero offset is
UTC outright (`zero_as_utc`); otherwise minutes above 59 or hours above
23 raise `ValueError` (`Invalid minutes/hours in time zone offset`). -/
def tzOffMk (sign : Char) (h m : Nat) : Option Int :=
  if sign = '+' ∨ sign = '-' then
    if h = 0 ∧ m = 0 then some 0
    else if 59 < m ∨ 23 < h then none
    else if sign = '+' then some ((h : Int) * 60 + (m : Int))
    else some (-((h : Int) * 60 + (m : Int)))
  else none

/-- `dateutil.parser.isoparser._parse_tzstr`: `Z`/`z`, or `±HH`, `±HHMM`,
`±HH:MM` (string length 1, 3, 5 or 6), range-checked by `tzOffMk`.  In
the 6-character form this model insists on the `:` separator and on
plain digit pairs, where the library's use of `int()` tolerates a few
more strings (e.g. a non-`:` separator folded into a 3-digit minute
field); every theorem below conditions on, or evaluates, offsets inside
the modelled subset. -/
def parse_tzstr (l : Str) : Option Int :=
  if l = ['Z'] ∨ l = ['z'] then some 0
  else
    match l with
    | [s1, h1, h2] =>
      match decVal? [h1, h2] with
      | some h => tzOffMk s1 h 0
      | none => none
    | [s1, h1, h2, m1, m2] =>
      match decVal? [h1, h2], decVal? [m1, m2] with
      | some h, some m => tzOffMk s1 h m
      | _, _ => none
    | [s1, h1, h2, col, m1, m2] =>
      if col = ':' then
        match decVal? [h1, h2], decVal? [m1, m2] with
        | some h, some m => tzOffMk s1 h m
        | _, _ => none
      else none
    | _ => none

/-- Characters that start the timezone part inside `_parse_isotime`. -/
def tzChar (c : Char) : Bool := c = '-' || c = '+' || c = 'Z' || c = 'z'

/-- Result of `_parse_isotime`: clock components plus optional offset
in minutes. -/
structure TimeComp where
  h : Nat
  mi : Nat
  s : Nat
  us : Nat
  tz : Option Int
deriving DecidableEq

/-- Microseconds from the fraction digits: truncate to six digits and
scale, `int(us_str) * 10**(6-len(us_str))`. -/
def usOf (ds : Str) : Nat :=
  (List.foldl (fun a c => a * 10 + (c.toNat - 48)) 0 (ds.take 6)) * 10 ^ (6 - (ds.take 6).length)

/-- After the fraction (`comp == 4` of the loop): the remainder must be
empty or a timezone string. -/
def fracAfter (h mi s us : Nat) (r : Str) : Option TimeComp :=
  match r with
  | [] => some ⟨h, mi, s, us, none⟩
  | c :: _ => if tzChar c then (parse_tzstr r).map (fun o => ⟨h, mi, s, us, some o⟩) else none

/-- After the seconds (`comp == 3`): timezone, or a `[.,]digits` fraction
(`_FRACTION_REGEX`), or end of string; anything else is unused input and
fails. -/
def secAfter (h mi s : Nat) (r : Str) : Option TimeComp :=
  match r with
  | [] => some ⟨h, mi, s, 0, none⟩
  | c :: rest =>
    if tzChar c then (parse_tzstr r).map (fun o => ⟨h, mi, s, 0, some o⟩)
    else if c = '.' ∨ c = ',' then
      (fun ds => if ds = [] then none else fracAfter h mi s (usOf ds) (rest.drop ds.length))
        (rest.takeWhile Char.isDigit)
    else none

/-- After the minutes (`comp == 2`): timezone, end, or seconds —
with a `:` separator exactly when one followed the hours. -/
def minAfter (h mi : Nat) (hasSep : Bool) (r : Str) : Option TimeComp :=
  match r with
  | [] => some ⟨h, mi, 0, 0, none⟩
  | c :: rest =>
    if tzChar c then (parse_tzstr r).map (fun o => ⟨h, mi, 0, 0, some o⟩)
    else
      match (if hasSep then (if c = ':' then some rest else none) else some r) with
      | none => none
      | some r2 =>
        match take2 r2 with
        | none => none
        | some (sec, r3) => secAfter h mi sec r3

/-- After the hours (`comp == 1`): timezone, end, or minutes, recording
whether a `:` separator is in use. -/
def hourAfter (h : Nat) (r : Str) : Option TimeComp :=
  match r with
  | [] => some ⟨h, 0, 0, 0, none⟩
  | c :: rest =>
    if tzChar c then (parse_tzstr r).map (fun o => ⟨h, 0, 0, 0, some o⟩)
    else
      match take2 (if c == ':' then rest else r) with
      | none => none
      | some (mi, r3) => minAfter h mi (c == ':') r3

/-- `dateutil.parser.isoparser._parse_isotime`: at least two characters;
a leading timezone gives a midnight clock; hour 24 is only legal with
zero minutes, seconds and fraction. -/
def parse_isotime (l : Str) : Option TimeComp :=
  if l.length < 2 then none
  else
    match l with
    | [] => none
    | c :: _ =>
      if tzChar c then (parse_tzstr l).map (fun o => ⟨0, 0, 0, 0, some o⟩)
      else
        match take2 l with
        | none => none
        | some (h, r) =>
          match hourAfter h r with
          | none => none
          | some t => if t.h = 24 ∧ ¬(t.mi = 0 ∧ t.s = 0 ∧ t.us = 0) then none else some t

/-- Python leap-year rule, `year % 4 == 0 and (year % 100 != 0 or year % 400 == 0)`. -/
def isLeap (y : Nat) : Bool := y % 4 == 0 && (!(y % 100 == 0) || y % 400 == 0)

/-- `datetime`'s `_days_in_month`. -/
def daysInMonth (y m : Nat) : Nat :=
  if m = 2 then (if isLeap y then 29 else 28)
  else if m = 4 ∨ m = 6 ∨ m = 9 ∨ m = 11 then 30
  else 31

/-- A parsed Python `datetime`: calendar fields plus the tzinfo offset in
minutes (`none` = naive, `some 0` = UTC). -/
structure PyDateTime where
  year : Nat
  month : Nat
  day : Nat
  hour : Nat
  minute : Nat
  second : Nat
  micro : Nat
  tz : Option Int
deriving DecidableEq

/-- The `datetime` constructor's range validation (`MINYEAR = 1`,
`MAXYEAR = 9999`). -/
def mkDatetime (y mo d h mi s us : Nat) (tz : Option Int) : Option PyDateTime :=
  if 1 ≤ y ∧ y ≤ 9999 ∧ 1 ≤ mo ∧ mo ≤ 12 ∧ 1 ≤ d ∧ d ≤ daysInMonth y mo ∧
     h ≤ 23 ∧ mi ≤ 59 ∧ s ≤ 59 ∧ us ≤ 999999 then
    some ⟨y, mo, d, h, mi, s, us, tz⟩
  else none

/-- The calendar successor of a date; `none` past `datetime.max`
(year 9999), where Python raises `OverflowError`. -/
def nextDay (y m d : Nat) : Option (Nat × Nat × Nat) :=
  if d < daysInMonth y m then some (y, m, d + 1)
  else if m < 12 then some (y, m + 1, 1)
  else if y < 9999 then some (y + 1, 1, 1)
  else none

/-- The calendar predecessor of a date; `none` before `datetime.min`
(year 1). -/
def prevDay (y m d : Nat) : Option (Nat × Nat × Nat) :=
  if 1 < d then some (y, m, d - 1)
  else if 1 < m then some (y, m - 1, daysInMonth y (m - 1))
  else if 1 < y then some (y - 1, 12, 31)
  else none

/-- `isoparse` itself: date part, then (after any single separator
character, the library's default) the time part; hour 24 becomes
midnight of the next day; the `datetime` constructor validates ranges. -/
def isoparse (s : Str) : Option PyDateTime :=
  match parse_isodate s with
  | none => none
  | some (y, mo, d, rest) =>
    match rest with
    | [] => mkDatetime y mo d 0 0 0 0 none
    | _ :: timeStr =>
      match parse_isotime timeStr with
      | none => none
      | some t =>
        if t.h = 24 then
          match mkDatetime y mo d 0 t.mi t.s t.us t.tz with
          | none => none
          | some dt0 =>
            match nextDay dt0.year dt0.month dt0.day with
            | none => none
            | some (y2, m2, d2) => some ⟨y2, m2, d2, 0, t.mi, t.s, t.us, t.tz⟩
        else mkDatetime y mo d t.h t.mi t.s t.us t.tz

/-- Apply a clock value of `t` minutes (possibly negative or ≥ one day,
but within one day either way) to a date: the day borrow/carry step of
`datetime` subtraction.  `none` when the date leaves years 1..9999. -/
def shiftClock (y m d sec us : Nat) (t : Int) : Option PyDateTime :=
  if t < 0 then
    (prevDay y m d).map
      (fun x => ⟨x.1, x.2.1, x.2.2, (t + 1440).toNat / 60, (t + 1440).toNat % 60,
                 sec, us, some 0⟩)
  else if 1440 ≤ t then
    (nextDay y m d).map
      (fun x => ⟨x.1, x.2.1, x.2.2, (t - 1440).toNat / 60, (t - 1440).toNat % 60,
                 sec, us, some 0⟩)
  else
    some ⟨y, m, d, t.toNat / 60, t.toNat % 60, sec, us, some 0⟩

/-- `dt.astimezone(timezone.utc)` on an aware datetime: subtract the
offset (shifting at most one calendar day, since valid offsets are under
24 hours) and stamp the result UTC.  `none` models the exceptions Python
raises here: a tzinfo offset not strictly within ±24h (`ValueError`) or a
result outside years 1..9999 (`OverflowError`). -/
def astimezoneUTC (dt : PyDateTime) : Option PyDateTime :=
  match dt.tz with
  | none => none
  | some off =>
    if off ≤ -1440 ∨ 1440 ≤ off then none
    else shiftClock dt.year dt.month dt.day dt.second dt.micro
      ((dt.hour : Int) * 60 + (dt.minute : Int) - off)

/-- Decimal digits of a natural number, most significant first; the glibc
`strftime` `%Y` output (no zero padding below four digits).  Fuel-driven;
`natDigits` supplies `n + 1`. -/
def digitsF : Nat → Nat → Str
  | 0, _ => []
  | fuel + 1, n =>
    if n < 10 then [Nat.digitChar n]
    else digitsF fuel (n / 10) ++ [Nat.digitChar (n % 10)]

/-- Decimal representation of a natural number. -/
def natDigits (n : Nat) : Str := digitsF (n + 1) n

/-- `strftime`'s `%m`/`%d`/`%H`/`%M`/`%S`: zero-padded to width two. -/
def pad2 (n : Nat) : Str := if n < 10 then ['0', Nat.digitChar n] else natDigits n

/-- `dt.strftime("%Y%m%dT%H%M%SZ")` on this platform (glibc `%Y` is an
unpadded decimal year). -/
def fmtZ (dt : PyDateTime) : Str :=
  natDigits dt.year ++ pad2 dt.month ++ pad2 dt.day ++
    'T' :: (pad2 dt.hour ++ pad2 dt.minute ++ pad2 dt.second ++ ['Z'])

/-- `zulu` from the script.  `none`/empty input is falsy and yields `None`;
otherwise `isoparse`, stamping naive values UTC without shifting them,
then `astimezone(timezone.utc)` and `strftime`.  `Except.error ()` models
the exceptions the Python code lets escape (parse failure — including an
out-of-range timezone offset — and year overflow in the conversion). -/
def zulu (dtStr : Option Str) : Except Unit (Option Str) :=
  match dtStr with
  | none => .ok none
  | some [] => .ok none
  | some s =>
    match isoparse s with
    | none => .error ()
    | some dt =>
      match astimezoneUTC (if dt.tz = none then ⟨dt.year, dt.month, dt.day, dt.hour,
          dt.minute, dt.second, dt.micro, some 0⟩ else dt) with
      | none => .error ()
      | some u => .ok (some (fmtZ u))

/-- “Instant” measure of a datetime: minutes since the epoch of the
proleptic Gregorian calendar (Rata Die day number times 1440 plus the
clock minutes), corrected by the offset.  Two datetimes denote the same
instant exactly when these values (and the seconds/microsecond fields) agree. -/
def daysBefore (leap : Bool) (m : Nat) : Nat :=
  (match m with
   | 1 => 0 | 2 => 31 | 3 => 59 | 4 => 90 | 5 => 120 | 6 => 151
   | 7 => 181 | 8 => 212 | 9 => 243 | 10 => 273 | 11 => 304 | 12 => 334
   | _ => 0) +
  (if leap = true ∧ 3 ≤ m then 1 else 0)

/-- Rata Die day number of a Gregorian date (day 1 = 0001-01-01),
matching Python's `date.toordinal`. -/
def rataDieN (y m d : Nat) : Nat :=
  365 * (y - 1) + (y - 1) / 4 + (y - 1) / 400 + daysBefore (isLeap y) m + d - (y - 1) / 100

/-- Minutes-since-epoch instant denoted by a datetime (offset-corrected). -/
def instantMin (dt : PyDateTime) : Int :=
  (rataDieN dt.year dt.month dt.day : Int) * 1440 +
    (dt.hour : Int) * 60 + (dt.minute : Int) - (dt.tz.getD 0)

/-- Valid Gregorian date within Python's `datetime` year range. -/
def ValidDate (y m d : Nat) : Prop :=
  1 ≤ y ∧ y ≤ 9999 ∧ 1 ≤ m ∧ m ≤ 12 ∧ 1 ≤ d ∧ d ≤ daysInMonth y m

/-- One page of the paginated feed: the `items` array and the reported
`totalItems` (absent key modelled as `none`). -/
structure Page (α : Type) where
  items : List α
  totalItems : Option Nat

/-- The `while True` pagination loop of `fetch_all_events`: fetch at the
current `skip`, append the page, advance by `take`, stop once the
advanced offset reaches the reported total (or the page length when the
total is absent).  Also records the sequence of requested `skip` values.
Fuel bounds the number of iterations; the theorems supply enough fuel for
the loop to hit its exit condition. -/
def fetchLoop {α : Type} (server : Nat → Page α) (tk : Nat) :
    Nat → Nat → List α → List Nat → List α × List Nat
  | 0, _, acc, reqs => (acc, reqs)
  | fuel + 1, skip, acc, reqs =>
    let d := server skip
    let total := (d.totalItems).getD d.items.length
    if total ≤ skip + tk then (acc ++ d.items, reqs ++ [skip])
    else fetchLoop server tk fuel (skip + tk) (acc ++ d.items) (reqs ++ [skip])

/-- `fetch_all_events`: page size 50, starting at `skip = 0`. -/
def fetch_all_events {α : Type} (server : Nat → Page α) (fuel : Nat) : List α × List Nat :=
  fetchLoop server 50 fuel 0 [] []

/-- The nested `address` object of a raw event record. -/
structure PyAddress where
  name : Option Str
  address : Option Str
deriving DecidableEq

/-- The nested `state` object of a raw event record. -/
structure PyState where
  status : Option Str
deriving DecidableEq

/-- A raw Engage event record, restricted to the keys the script reads.
`none` models both an absent key and an explicit JSON `null` (the script
only ever distinguishes them by truthiness, which identifies the two). -/
structure RawEvent where
  id : Option Str
  name : Option Str
  description : Option Str
  startsOn : Option Str
  endsOn : Option Str
  address : Option PyAddress
  imageUrl : Option Str
  state : Option PyState
deriving DecidableEq

/-- `x or ""` on an optional string. -/
def optStr (o : Option Str) : Str := o.getD []

/-- Python truthiness of an optional string: present and nonempty. -/
def strTruthy (o : Option Str) : Bool :=
  match o with
  | some (_ :: _) => true
  | _ => false

/-- `text.replace(" ,", ",")`: left-to-right, non-overlapping. -/
def replaceSpaceComma : Str → Str
  | [] => []
  | [c] => [c]
  | a :: b :: rest =>
    if a = ' ' ∧ b = ',' then ',' :: replaceSpaceComma rest
    else a :: replaceSpaceComma (b :: rest)

/-- Python `str.lower()`.  Modelled on ASCII (`Char.toLower` lowercases
exactly `A`–`Z`); the comparison target `"canceled"` is pure ASCII, and no
non-ASCII character lowercases to any of its letters, so the modelled
comparison agrees with Python's. -/
def pyLower (s : Str) : Str := s.map Char.toLower

/-- The LOCATION derivation of `to_vevent`: combine venue name and
address when both are truthy (joining with `", "`, then
`.replace(" ,", ",").strip()`), else whichever is truthy, stripped. -/
def locOf (e : RawEvent) : Str :=
  (fun ad : PyAddress =>
    if strTruthy ad.name && strTruthy ad.address then
      pyStrip (replaceSpaceComma (optStr ad.name ++ (", ".toList) ++ optStr ad.address))
    else if strTruthy ad.name then pyStrip (optStr ad.name)
    else if strTruthy ad.address then pyStrip (optStr ad.address)
    else [])
  (e.address.getD (PyAddress.mk none none))

/-- The cancellation test of `to_vevent`:
`status and status.lower() == "canceled"`. -/
def is_cancelled (e : RawEvent) : Bool :=
  match (e.state.getD (PyState.mk none)).status with
  | none => false
  | some st =>
    if st = [] then false
    else if pyLower st = ("canceled".toList) then true
    else false

/-- The UID line, `f"UID:{eid}@fairmontstate.edu"`; a missing or null
`id` is rendered by the f-string as the literal text `None`. -/
def uidLine (e : RawEvent) : Str :=
  ("UID:".toList) ++ (match e.id with | some sid => sid | none => ("None".toList)) ++
    ("@fairmontstate.edu".toList)

/-- A conditionally emitted line. -/
def optLine (b : Bool) (l : Str) : List Str := if b then [l] else []

/-- The line sequence `to_vevent` builds once both timestamps are
normalised (`dtstart`/`dtend` are the results of `zulu`). -/
def veventLines (now : Str) (e : RawEvent) (dtstart dtend : Option Str) : List Str :=
  [("BEGIN:VEVENT".toList), uidLine e, ("DTSTAMP:".toList) ++ now]
  ++ optLine (strTruthy dtstart) (("DTSTART:".toList) ++ optStr dtstart)
  ++ optLine (strTruthy dtend) (("DTEND:".toList) ++ optStr dtend)
  ++ [("SUMMARY:".toList) ++ escape_ical (optStr e.name)]
  ++ optLine (!(strip_html (optStr e.description)).isEmpty)
       (("DESCRIPTION:".toList) ++ escape_ical (strip_html (optStr e.description)))
  ++ optLine (!(locOf e).isEmpty) (("LOCATION:".toList) ++ escape_ical (locOf e))
  ++ optLine (strTruthy e.imageUrl) (("URL:".toList) ++ optStr e.imageUrl)
  ++ optLine (is_cancelled e) ("STATUS:CANCELLED".toList)
  ++ [("END:VEVENT".toList)]

/-- `to_vevent` from the script.  `now` is the DTSTAMP string
(`datetime.now(timezone.utc).strftime(...)`, an effect passed in as a
parameter).  The `zulu` calls on `startsOn` and `endsOn` may raise;
an exception propagates out of the mapper as in Python. -/
def to_vevent (now : Str) (e : RawEvent) : Except Unit (List Str) :=
  match zulu e.startsOn with
  | .error er => .error er
  | .ok dtstart =>
    match zulu e.endsOn with
    | .error er => .error er
    | .ok dtend => .ok (veventLines now e dtstart dtend)

/-- The `for e in events: lines.extend(to_vevent(e))` loop of `main`:
blocks concatenated in input order, first exception aborting the run. -/
def buildBlocks (now : Str) : List RawEvent → Except Unit (List Str)
  | [] => .ok []
  | e :: es =>
    match to_vevent now e with
    | .error er => .error er
    | .ok l =>
      match buildBlocks now es with
      | .error er => .error er
      | .ok ls => .ok (l ++ ls)

/-- The full line list `main` assembles: fixed VCALENDAR header, one
VEVENT block per record in input order, closing marker. -/
def calendarLines (events : List RawEvent) (now : Str) : Except Unit (List Str) :=
  match buildBlocks now events with
  | .error er => .error er
  | .ok blocks =>
    .ok (
      [("BEGIN:VCALENDAR".toList), ("VERSION:2.0".toList),
       ("PRODID:-//Fairmont State//Engage iCal//EN".toList),
       ("CALSCALE:GREGORIAN".toList), ("METHOD:PUBLISH".toList)]
      ++ blocks ++ [("END:VCALENDAR".toList)])

/-- `"\r\n".join(lines)`. -/
def crlfJoin : List Str → Str
  | [] => []
  | [l] => l
  | l :: ls => l ++ '\r' :: '\n' :: crlfJoin ls

/-- The newline translation performed by
`open(..., "w", newline="\r\n")`: on write, every `\n` character is
replaced by `\r\n` (Python text-mode semantics for an explicit
`newline` argument). -/
def pyNewlineWrite (s : Str) : Str :=
  strJoinMap (fun c => if c = '\n' then ['\r', '\n'] else [c]) s

/-- The bytes `main` actually writes to the output file: the CRLF-joined
line list, passed through the text-mode newline translation. -/
def writtenFile (events : List RawEvent) (now : Str) : Except Unit Str :=
  match calendarLines events now with
  | .error er => .error er
  | .ok ls => .ok (pyNewlineWrite (crlfJoin ls))

/-- "Contains a FOO line": some line of the list starts with the given
property name. -/
def hasLine (p : Str) (L : List Str) : Prop := ∃ l ∈ L, pfx p l = true

theorem strJoinMap_append (f : Char → Str) (a b : Str) :
    strJoinMap f (a ++ b) = strJoinMap f a ++ strJoinMap f b := by
  induction a with
  | nil => rfl
  | cons c r ih => simp [strJoinMap, ih]

theorem strJoinMap_comp (f g : Char → Str) (s : Str) :
    strJoinMap g (strJoinMap f s) = strJoinMap (fun c => strJoinMap g (f c)) s := by
  induction s with
  | nil => rfl
  | cons c r ih => simp [strJoinMap, strJoinMap_append, ih]

theorem escape_eq_escChar (s : Str) : escape_ical s = strJoinMap escChar s := by
  rcases s with _ | ⟨c, r⟩
  · rfl
  · unfold escape_ical replace1
    rw [if_neg (by simp), strJoinMap_comp, strJoinMap_comp, strJoinMap_comp]
    congr 1
    funext x
    by_cases h1 : x = '\\'
    · subst h1; rfl
    · by_cases h2 : x = ','
      · subst h2; rfl
      · by_cases h3 : x = ';'
        · subst h3; rfl
        · by_cases h4 : x = '\n'
          · subst h4; rfl
          · simp [escChar, h1, h2, h3, h4, strJoinMap]

theorem unescape_cons_ne {c : Char} (h : ¬ c = '\\') (l : Str) :
    unescape_ical (c :: l) = c :: unescape_ical l := by
  rw [unescape_ical.eq_def]
  simp [h]

theorem unescape_pair (d : Char) (l : Str) :
    unescape_ical ('\\' :: d :: l) =
      (if d = '\\' then ['\\']
       else if d = ',' then [',']
       else if d = ';' then [';']
       else if d = 'n' then ['\n']
       else ['\\', d]) ++ unescape_ical l := by
  rw [unescape_ical.eq_def]
  simp

theorem unescape_escChar (s : Str) : unescape_ical (strJoinMap escChar s) = s := by
  induction s with
  | nil => rfl
  | cons c r ih =>
    by_cases h1 : c = '\\'
    · subst h1; simpa [strJoinMap, escChar, unescape_pair] using ih
    · by_cases h2 : c = ','
      · subst h2; simpa [strJoinMap, escChar, unescape_pair] using ih
      · by_cases h3 : c = ';'
        · subst h3; simpa [strJoinMap, escChar, unescape_pair] using ih
        · by_cases h4 : c = '\n'
          · subst h4; simpa [strJoinMap, escChar, unescape_pair] using ih
          · simpa [strJoinMap, escChar, h1, h2, h3, h4, unescape_cons_ne] using ih

/-- C7: `escape_ical` performs the backslash substitution first, so the
escape sequences introduced by the later substitutions are never
re-escaped — the whole chain acts as one independent per-character
substitution (`escChar`) — and consequently the inverse unescaping
recovers the original text from the escaped form for every input. -/
theorem escape_ical_roundtrip (s : Str) :
    escape_ical s = strJoinMap escChar s ∧ unescape_ical (escape_ical s) = s :=
  ⟨escape_eq_escChar s, by rw [escape_eq_escChar]; exact unescape_escChar s⟩

/-- C2: against a feed reporting `totalItems = 120` and serving 50-item
pages of a fixed 120-item list, the pagination loop issues exactly the
three requests `skip = 0, 50, 100` and returns all 120 items in the
server's delivery order.  (`fuel` bounds the `while True` loop; any
fuel ≥ 3 reaches the exit condition and gives the same result.) -/
theorem fetch_pagination {α : Type} (full : List α) (h : full.length = 120)
    (server : Nat → Page α)
    (hs : ∀ skip, server skip = Page.mk ((full.drop skip).take 50) (some 120))
    (fuel : Nat) (hf : 3 ≤ fuel) :
    fetch_all_events server fuel = (full, [0, 50, 100]) := by
  obtain ⟨k, rfl⟩ : ∃ k, fuel = k + 3 := ⟨fuel - 3, by omega⟩
  unfold fetch_all_events
  rw [fetchLoop, hs]
  norm_num
  rw [fetchLoop, hs]
  norm_num
  rw [fetchLoop, hs]
  norm_num
  have h1 : full.take 50 ++ (full.drop 50).take 50 = full.take 100 := by
    have := List.take_add full 50 50
    simpa using this.symm
  have h2 : full.take 100 ++ (full.drop 100).take 50 = full.take 150 := by
    have := List.take_add full 100 50
    simpa using this.symm
  rw [← List.append_assoc, h1, h2, List.take_of_length_le (by omega)]

/-- Witness for C2 at a concrete 120-item feed. -/
theorem fetch_pagination_witness :
    fetch_all_events (fun skip => Page.mk (((List.range 120).drop skip).take 50) (some 120)) 3
      = (List.range 120, [0, 50, 100]) :=
  fetch_pagination (List.range 120) (by simp) _ (fun _ => rfl) 3 (by norm_num)

theorem pfx_self_append (p x : Str) : pfx p (p ++ x) = true := by
  induction p with
  | nil => rfl
  | cons a q ih => simpa [pfx] using ih

theorem pfx_append_false (p pre : Str) (h : pfx (p.take pre.length) pre = false) (x : Str) :
    pfx p (pre ++ x) = false := by
  induction pre generalizing p with
  | nil => simp [pfx] at h
  | cons b pre' ih =>
    cases p with
    | nil => simp [pfx] at h
    | cons a p' =>
      by_cases hab : a = b
      · subst hab
        have h' : pfx (p'.take pre'.length) pre' = false := by
          simpa [pfx] using h
        simpa [pfx] using ih p' h'
      · simp [pfx, hab]

theorem append_ne_of_pfx_false (pre t : Str) (h : pfx pre t = false) (x : Str) :
    pre ++ x ≠ t := by
  intro he
  rw [← he, pfx_self_append] at h
  simp at h

theorem pfx_of_pfx_append {p pre x : Str} (h : pfx p (pre ++ x) = true) :
    pfx (p.take pre.length) pre = true := by
  by_contra hc
  rw [pfx_append_false p pre (Bool.not_eq_true _ ▸ hc) x] at h
  simp at h

theorem mem_optLine {x l : Str} {b : Bool} : x ∈ optLine b l ↔ (b = true ∧ x = l) := by
  cases b <;> simp [optLine]

set_option maxHeartbeats 2000000 in
theorem mem_veventLines {now : Str} {e : RawEvent} {d1 d2 : Option Str} {x : Str} :
    x ∈ veventLines now e d1 d2 ↔
      x = ("BEGIN:VEVENT".toList) ∨
      x = uidLine e ∨
      x = ("DTSTAMP:".toList) ++ now ∨
      (strTruthy d1 = true ∧ x = ("DTSTART:".toList) ++ optStr d1) ∨
      (strTruthy d2 = true ∧ x = ("DTEND:".toList) ++ optStr d2) ∨
      x = ("SUMMARY:".toList) ++ escape_ical (optStr e.name) ∨
      ((strip_html (optStr e.description)).isEmpty = false ∧
        x = ("DESCRIPTION:".toList) ++ escape_ical (strip_html (optStr e.description))) ∨
      ((locOf e).isEmpty = false ∧ x = ("LOCATION:".toList) ++ escape_ical (locOf e)) ∨
      (strTruthy e.imageUrl = true ∧ x = ("URL:".toList) ++ optStr e.imageUrl) ∨
      (is_cancelled e = true ∧ x = ("STATUS:CANCELLED".toList)) ∨
      x = ("END:VEVENT".toList) := by
  simp only [veventLines, List.mem_append, List.mem_cons, List.mem_singleton, mem_optLine,
    List.not_mem_nil, or_false, false_or, Bool.not_eq_true']
  tauto

theorem head?_append_some {α : Type} {l1 : List α} {a : α} (h : l1.head? = some a)
    (l2 : List α) : (l1 ++ l2).head? = some a := by
  cases l1 with
  | nil => simp at h
  | cons x t => simpa using h

theorem getLast?_append_right {α : Type} {l2 : List α} {a : α} (l1 : List α)
    (h : l2.getLast? = some a) : (l1 ++ l2).getLast? = some a := by
  rw [List.getLast?_append, h]
  rfl

theorem getElem?_one_append {α : Type} {l1 : List α} {a : α} (h : l1[1]? = some a)
    (l2 : List α) : (l1 ++ l2)[1]? = some a := by
  have hlen : 1 < l1.length := by
    rcases l1 with _ | ⟨x, _ | ⟨y, t⟩⟩ <;> simp_all
  rw [List.getElem?_append, if_pos hlen, h]

theorem veventLines_head {now : Str} {e : RawEvent} {d1 d2 : Option Str} :
    (veventLines now e d1 d2).head? = some ("BEGIN:VEVENT".toList) := by
  unfold veventLines
  repeat first | exact rfl | apply head?_append_some

theorem veventLines_last {now : Str} {e : RawEvent} {d1 d2 : Option Str} :
    (veventLines now e d1 d2).getLast? = some ("END:VEVENT".toList) := by
  unfold veventLines
  exact getLast?_append_right _ rfl

theorem veventLines_uid {now : Str} {e : RawEvent} {d1 d2 : Option Str} :
    (veventLines now e d1 d2)[1]? = some (uidLine e) := by
  unfold veventLines
  repeat first | exact rfl | apply getElem?_one_append

/-- Inversion of a successful `to_vevent` run into its `zulu` results and
the produced line list. -/
theorem to_vevent_ok {now : Str} {e : RawEvent} {L : List Str}
    (h : to_vevent now e = .ok L) :
    ∃ d1 d2, zulu e.startsOn = .ok d1 ∧ zulu e.endsOn = .ok d2 ∧
      L = veventLines now e d1 d2 := by
  cases hz1 : zulu e.startsOn with
  | error er => unfold to_vevent at h; rw [hz1] at h; simp at h
  | ok d1 =>
    cases hz2 : zulu e.endsOn with
    | error er => unfold to_vevent at h; rw [hz1, hz2] at h; simp at h
    | ok d2 =>
      unfold to_vevent at h
      rw [hz1, hz2] at h
      simp only [Except.ok.injEq] at h
      exact ⟨d1, d2, rfl, rfl, h.symm⟩

/-- `zulu` on a nonempty string, unfolded past the falsy guard. -/
theorem zulu_cons (c : Char) (cs : Str) :
    zulu (some (c :: cs)) =
      match isoparse (c :: cs) with
      | none => .error ()
      | some dt =>
        match astimezoneUTC (if dt.tz = none then ⟨dt.year, dt.month, dt.day, dt.hour,
            dt.minute, dt.second, dt.micro, some 0⟩ else dt) with
        | none => .error ()
        | some u => .ok (some (fmtZ u)) := rfl

/-- `zulu` on a nonempty string whose parse fails: the exception path. -/
theorem zulu_cons_noparse {c : Char} {cs : Str} (hi : isoparse (c :: cs) = none) :
    zulu (some (c :: cs)) = .error () := by
  rw [zulu_cons, hi]

/-- `zulu` on a nonempty string with a successful parse. -/
theorem zulu_cons_parse {c : Char} {cs : Str} {dt : PyDateTime}
    (hi : isoparse (c :: cs) = some dt) :
    zulu (some (c :: cs)) =
      match astimezoneUTC (if dt.tz = none then ⟨dt.year, dt.month, dt.day, dt.hour,
          dt.minute, dt.second, dt.micro, some 0⟩ else dt) with
      | none => .error ()
      | some u => .ok (some (fmtZ u)) := by
  rw [zulu_cons, hi]

theorem zulu_ok_some_ne_nil {o : Option Str} {z : Str} (h : zulu o = .ok (some z)) :
    z ≠ [] := by
  rcases o with _ | s
  · simp [zulu] at h
  · rcases s with _ | ⟨c, cs⟩
    · simp [zulu] at h
    · cases hi : isoparse (c :: cs) with
      | none => rw [zulu_cons_noparse hi] at h; simp at h
      | some dt =>
        rw [zulu_cons_parse hi] at h
        cases ha : astimezoneUTC (if dt.tz = none then ⟨dt.year, dt.month, dt.day, dt.hour,
            dt.minute, dt.second, dt.micro, some 0⟩ else dt) with
        | none => rw [ha] at h; simp at h
        | some u =>
          rw [ha] at h
          simp only [Except.ok.injEq, Option.some.injEq] at h
          subst h
          simp [fmtZ]

/-- C3: every successfully produced VEVENT block starts with
`BEGIN:VEVENT`, ends with `END:VEVENT`, always contains a UID, DTSTAMP
and SUMMARY line, and contains a DTSTART (resp. DTEND) line exactly when
the normalised start (resp. end) timestamp is non-null — an absent
timestamp omits the line entirely. -/
theorem to_vevent_structure (now : Str) (e : RawEvent) (L : List Str)
    (h : to_vevent now e = .ok L) :
    L.head? = some ("BEGIN:VEVENT".toList) ∧
    L.getLast? = some ("END:VEVENT".toList) ∧
    hasLine ("UID:".toList) L ∧
    hasLine ("DTSTAMP:".toList) L ∧
    hasLine ("SUMMARY:".toList) L ∧
    (hasLine ("DTSTART:".toList) L ↔ ∃ z, zulu e.startsOn = .ok (some z)) ∧
    (hasLine ("DTEND:".toList) L ↔ ∃ z, zulu e.endsOn = .ok (some z)) := by
  obtain ⟨d1, d2, hz1, hz2, rfl⟩ := to_vevent_ok h
  refine ⟨veventLines_head, veventLines_last, ?_, ?_, ?_, ?_, ?_⟩
  · refine ⟨uidLine e, mem_veventLines.mpr (Or.inr (Or.inl rfl)), ?_⟩
    rw [uidLine, List.append_assoc]
    exact pfx_self_append _ _
  · exact ⟨("DTSTAMP:".toList) ++ now,
      mem_veventLines.mpr (Or.inr (Or.inr (Or.inl rfl))), pfx_self_append _ _⟩
  · refine ⟨("SUMMARY:".toList) ++ escape_ical (optStr e.name),
      mem_veventLines.mpr ?_, pfx_self_append _ _⟩
    exact Or.inr (Or.inr (Or.inr (Or.inr (Or.inr (Or.inl rfl)))))
  · cases d1 with
    | none =>
      constructor
      · rintro ⟨l, hl, hp⟩
        rcases mem_veventLines.mp hl with
          h1|h1|h1|⟨hb,h1⟩|⟨hb,h1⟩|h1|⟨hb,h1⟩|⟨hb,h1⟩|⟨hb,h1⟩|⟨hb,h1⟩|h1 <;> subst h1 <;>
        first
          | exact absurd hp (by decide)
          | exact absurd (pfx_of_pfx_append hp) (by decide)
          | (rw [uidLine, List.append_assoc] at hp
             exact absurd (pfx_of_pfx_append hp) (by decide))
          | exact absurd hb (by simp [strTruthy])
      · rintro ⟨z, hz⟩
        rw [hz1] at hz
        simp at hz
    | some z =>
      have hne : z ≠ [] := zulu_ok_some_ne_nil hz1
      constructor
      · exact fun _ => ⟨z, hz1⟩
      · intro _
        refine ⟨("DTSTART:".toList) ++ optStr (some z),
          mem_veventLines.mpr (Or.inr (Or.inr (Or.inr (Or.inl ⟨?_, rfl⟩)))),
          pfx_self_append _ _⟩
        cases z with
        | nil => exact absurd rfl hne
        | cons a b => rfl
  · cases d2 with
    | none =>
      constructor
      · rintro ⟨l, hl, hp⟩
        rcases mem_veventLines.mp hl with
          h1|h1|h1|⟨hb,h1⟩|⟨hb,h1⟩|h1|⟨hb,h1⟩|⟨hb,h1⟩|⟨hb,h1⟩|⟨hb,h1⟩|h1 <;> subst h1 <;>
        first
          | exact absurd hp (by decide)
          | exact absurd (pfx_of_pfx_append hp) (by decide)
          | (rw [uidLine, List.append_assoc] at hp
             exact absurd (pfx_of_pfx_append hp) (by decide))
          | exact absurd hb (by simp [strTruthy])
      · rintro ⟨z, hz⟩
        rw [hz2] at hz
        simp at hz
    | some z =>
      have hne : z ≠ [] := zulu_ok_some_ne_nil hz2
      constructor
      · exact fun _ => ⟨z, hz2⟩
      · intro _
        refine ⟨("DTEND:".toList) ++ optStr (some z),
          mem_veventLines.mpr (Or.inr (Or.inr (Or.inr (Or.inr (Or.inl ⟨?_, rfl⟩))))),
          pfx_self_append _ _⟩
        cases z with
        | nil => exact absurd rfl hne
        | cons a b => rfl

/-- Witness for C3: the record `{"startsOn": "2024-09-10T13:00:00"}`
produces a block with a DTSTART line. -/
theorem to_vevent_structure_witness :
    hasLine ("DTSTART:".toList)
      ["BEGIN:VEVENT".toList, "UID:None@fairmontstate.edu".toList, "DTSTAMP:N".toList,
       "DTSTART:20240910T130000Z".toList, "SUMMARY:".toList, "END:VEVENT".toList] :=
  (to_vevent_structure ("N".toList)
    (RawEvent.mk none none none (some ("2024-09-10T13:00:00".toList)) none none none none)
    ["BEGIN:VEVENT".toList, "UID:None@fairmontstate.edu".toList, "DTSTAMP:N".toList,
     "DTSTART:20240910T130000Z".toList, "SUMMARY:".toList, "END:VEVENT".toList]
    (by decide)).2.2.2.2.2.1.mpr ⟨"20240910T130000Z".toList, by decide⟩

/-- C5 (amended): `to_vevent` can fail only through the timestamp
normaliser: whenever `zulu` succeeds on the record's `startsOn` and
`endsOn` fields — in particular when each is absent, empty, or a
common-form ISO-8601 string with an in-range (or no) offset — the
mapping succeeds and every other field access degrades gracefully to a
well-formed, possibly sparser, block.  (The unamended claim is refuted
by `to_vevent_raises`: a timestamp string the parser rejects makes
`parser.isoparse`, and hence `to_vevent`, raise.) -/
theorem to_vevent_total (now : Str) (e : RawEvent)
    (h1 : ∃ o, zulu e.startsOn = .ok o) (h2 : ∃ o, zulu e.endsOn = .ok o) :
    ∃ L, to_vevent now e = .ok L ∧ L.head? = some ("BEGIN:VEVENT".toList) ∧
      L.getLast? = some ("END:VEVENT".toList) := by
  obtain ⟨o1, ho1⟩ := h1
  obtain ⟨o2, ho2⟩ := h2
  refine ⟨veventLines now e o1 o2, ?_, veventLines_head, veventLines_last⟩
  unfold to_vevent
  rw [ho1, ho2]

/-- Counterexample to C5 as stated: a record whose `startsOn` is the
unparseable string `"x"` makes `to_vevent` raise (in Python,
`parser.isoparse("x")` throws `ValueError`, which nothing catches). -/
theorem to_vevent_raises :
    to_vevent [] (RawEvent.mk none none none (some ("x".toList)) none none none none)
      = .error () := by decide

/-- Witness for C5 on the spec's example record. -/
theorem to_vevent_total_witness :
    to_vevent ("N".toList)
      (RawEvent.mk (some ("42".toList)) (some ("Career Fair".toList))
        (some ("<p>Meet recruiters &nbsp;today</p>".toList))
        (some ("2024-09-10T13:00:00".toList)) (some ("2024-09-10T16:00:00".toList))
        none none (some (PyState.mk (some ("Approved".toList)))))
      ≠ .error () := by
  obtain ⟨L, hL, -, -⟩ := to_vevent_total ("N".toList)
    (RawEvent.mk (some ("42".toList)) (some ("Career Fair".toList))
      (some ("<p>Meet recruiters &nbsp;today</p>".toList))
      (some ("2024-09-10T13:00:00".toList)) (some ("2024-09-10T16:00:00".toList))
      none none (some (PyState.mk (some ("Approved".toList)))))
    ⟨some ("20240910T130000Z".toList), by decide⟩
    ⟨some ("20240910T160000Z".toList), by decide⟩
  rw [hL]
  simp

/-- C8: when the record's `id` is present, the emitted UID line is exactly
the identifier, `@`, and the domain suffix `fairmontstate.edu` (the
suffix the program is configured with, hard-coded in `to_vevent`), and
two runs of the mapper on the same record — at different generation
times — emit the identical UID line. -/
theorem uid_line_stable (now now2 : Str) (e : RawEvent) (sid : Str) (L L2 : List Str)
    (hid : e.id = some sid)
    (h : to_vevent now e = .ok L) (h2 : to_vevent now2 e = .ok L2) :
    L[1]? = some (("UID:".toList) ++ sid ++ ("@fairmontstate.edu".toList)) ∧
    L2[1]? = L[1]? := by
  obtain ⟨d1, d2, -, -, rfl⟩ := to_vevent_ok h
  obtain ⟨d1', d2', -, -, rfl⟩ := to_vevent_ok h2
  rw [veventLines_uid, veventLines_uid]
  constructor
  · simp [uidLine, hid]
  · rfl

/-- Witness for C8 at a concrete record with id `42`. -/
theorem uid_line_stable_witness :
    (["BEGIN:VEVENT".toList, "UID:42@fairmontstate.edu".toList, "DTSTAMP:N".toList,
      "SUMMARY:".toList, "END:VEVENT".toList] : List Str)[1]?
      = some (("UID:".toList) ++ ("42".toList) ++ ("@fairmontstate.edu".toList)) :=
  (uid_line_stable ("N".toList) ("M".toList)
    (RawEvent.mk (some ("42".toList)) none none none none none none none) ("42".toList)
    ["BEGIN:VEVENT".toList, "UID:42@fairmontstate.edu".toList, "DTSTAMP:N".toList,
     "SUMMARY:".toList, "END:VEVENT".toList]
    ["BEGIN:VEVENT".toList, "UID:42@fairmontstate.edu".toList, "DTSTAMP:M".toList,
     "SUMMARY:".toList, "END:VEVENT".toList]
    rfl (by decide) (by decide)).1

theorem is_cancelled_state_none {e : RawEvent} (he : e.state = none) :
    is_cancelled e = false := by
  unfold is_cancelled
  rw [he]
  rfl

theorem is_cancelled_status_none {e : RawEvent} {st : PyState} (he : e.state = some st)
    (hst : st.status = none) : is_cancelled e = false := by
  unfold is_cancelled
  rw [he, Option.getD_some, hst]

theorem is_cancelled_eq (e : RawEvent) (st : PyState) (s : Str) (he : e.state = some st)
    (hst : st.status = some s) :
    is_cancelled e =
      (if s = [] then false
       else if pyLower s = ("canceled".toList) then true else false) := by
  unfold is_cancelled
  rw [he, Option.getD_some, hst]

/-- C9: the produced block contains the line `STATUS:CANCELLED` exactly
when the record's nested `state.status` field is present and
case-insensitively equals `"canceled"`. -/
theorem status_cancelled_iff (now : Str) (e : RawEvent) (L : List Str)
    (h : to_vevent now e = .ok L) :
    (("STATUS:CANCELLED".toList) ∈ L ↔
      ∃ st s, e.state = some st ∧ st.status = some s ∧ pyLower s = ("canceled".toList)) := by
  obtain ⟨d1, d2, hz1, hz2, rfl⟩ := to_vevent_ok h
  have hiff : is_cancelled e = true ↔
      ∃ st s, e.state = some st ∧ st.status = some s ∧ pyLower s = ("canceled".toList) := by
    rcases he : e.state with _ | st
    · rw [is_cancelled_state_none he]
      constructor
      · intro h'; exact absurd h' (by simp)
      · rintro ⟨st', s', hes, -, -⟩
        exact Option.noConfusion hes
    · rcases hst : st.status with _ | s
      · rw [is_cancelled_status_none he hst]
        constructor
        · intro h'; exact absurd h' (by simp)
        · rintro ⟨st', s', hes, hss, -⟩
          rw [Option.some.injEq] at hes
          subst hes
          rw [hst] at hss
          exact Option.noConfusion hss
      · rw [is_cancelled_eq e st s he hst]
        by_cases hnil : s = []
        · rw [if_pos hnil]
          constructor
          · intro h'; exact absurd h' (by simp)
          · rintro ⟨st', s', hes, hss, hl⟩
            rw [Option.some.injEq] at hes
            subst hes
            rw [hst, Option.some.injEq] at hss
            subst hss
            subst hnil
            exact absurd hl (by decide)
        · rw [if_neg hnil]
          by_cases hcan : pyLower s = ("canceled".toList)
          · rw [if_pos hcan]
            exact ⟨fun _ => ⟨st, s, rfl, hst, hcan⟩, fun _ => rfl⟩
          · rw [if_neg hcan]
            constructor
            · intro h'; exact absurd h' (by simp)
            · rintro ⟨st', s', hes, hss, hl⟩
              rw [Option.some.injEq] at hes
              subst hes
              rw [hst, Option.some.injEq] at hss
              subst hss
              exact absurd hl hcan
  rw [← hiff]
  constructor
  · intro hm
    rcases mem_veventLines.mp hm with
      h1|h1|h1|⟨hb,h1⟩|⟨hb,h1⟩|h1|⟨hb,h1⟩|⟨hb,h1⟩|⟨hb,h1⟩|⟨hb,h1⟩|h1 <;>
    first
      | exact hb
      | exact absurd h1 (by decide)
      | exact absurd h1.symm (append_ne_of_pfx_false _ _ (by decide) _)
      | (rw [uidLine, List.append_assoc] at h1
         exact absurd h1.symm (append_ne_of_pfx_false _ _ (by decide) _))
  · intro hc
    exact mem_veventLines.mpr
      (Or.inr (Or.inr (Or.inr (Or.inr (Or.inr (Or.inr (Or.inr (Or.inr (Or.inr
        (Or.inl ⟨hc, rfl⟩))))))))))

/-- Witness for C9: a record with `{"state": {"status": "Canceled"}}`
yields a `STATUS:CANCELLED` line. -/
theorem status_cancelled_witness :
    ("STATUS:CANCELLED".toList) ∈
      (["BEGIN:VEVENT".toList, "UID:None@fairmontstate.edu".toList, "DTSTAMP:N".toList,
        "SUMMARY:".toList, "STATUS:CANCELLED".toList, "END:VEVENT".toList] : List Str) :=
  (status_cancelled_iff ("N".toList)
    (RawEvent.mk none none none none none none none
      (some (PyState.mk (some ("Canceled".toList)))))
    ["BEGIN:VEVENT".toList, "UID:None@fairmontstate.edu".toList, "DTSTAMP:N".toList,
     "SUMMARY:".toList, "STATUS:CANCELLED".toList, "END:VEVENT".toList]
    (by decide)).mpr
    ⟨PyState.mk (some ("Canceled".toList)), "Canceled".toList, rfl, rfl, by decide⟩

/-- C10 (implicit edge case): when the record's `id` is absent or null,
`to_vevent` still emits a UID line, whose identifier part is the literal
text `None` (Python's f-string rendering of `None`) — so every id-less
record receives the same, non-unique `UID:None@fairmontstate.edu`
identity rather than a fallback or an omitted line. -/
theorem uid_none_fallback (now now2 : Str) (e e2 : RawEvent) (L L2 : List Str)
    (hid : e.id = none) (hid2 : e2.id = none)
    (h : to_vevent now e = .ok L) (h2 : to_vevent now2 e2 = .ok L2) :
    L[1]? = some ("UID:None@fairmontstate.edu".toList) ∧ L2[1]? = L[1]? := by
  obtain ⟨d1, d2, -, -, rfl⟩ := to_vevent_ok h
  obtain ⟨d1', d2', -, -, rfl⟩ := to_vevent_ok h2
  rw [veventLines_uid, veventLines_uid]
  constructor
  · simp only [uidLine, hid]
    decide
  · simp only [uidLine, hid, hid2]

/-- Witness for C10: two different id-less records from runs with
different generation stamps share the `UID:None@fairmontstate.edu` line. -/
theorem uid_none_fallback_witness :
    (["BEGIN:VEVENT".toList, "UID:None@fairmontstate.edu".toList, "DTSTAMP:N".toList,
      "SUMMARY:".toList, "END:VEVENT".toList] : List Str)[1]?
      = some ("UID:None@fairmontstate.edu".toList) ∧
    (["BEGIN:VEVENT".toList, "UID:None@fairmontstate.edu".toList, "DTSTAMP:M".toList,
      "SUMMARY:X".toList, "END:VEVENT".toList] : List Str)[1]?
      = (["BEGIN:VEVENT".toList, "UID:None@fairmontstate.edu".toList, "DTSTAMP:N".toList,
          "SUMMARY:".toList, "END:VEVENT".toList] : List Str)[1]? :=
  uid_none_fallback ("N".toList) ("M".toList)
    (RawEvent.mk none none none none none none none none)
    (RawEvent.mk none (some ("X".toList)) none none none none none none)
    ["BEGIN:VEVENT".toList, "UID:None@fairmontstate.edu".toList, "DTSTAMP:N".toList,
     "SUMMARY:".toList, "END:VEVENT".toList]
    ["BEGIN:VEVENT".toList, "UID:None@fairmontstate.edu".toList, "DTSTAMP:M".toList,
     "SUMMARY:X".toList, "END:VEVENT".toList]
    rfl rfl (by decide) (by decide)

set_option maxRecDepth 10000 in
/-- C4 evidence: the document `main` assembles in memory is CRLF-joined
and correctly structured, but the file is opened with `newline="\r\n"`,
which makes Python's text layer translate every written `\n` into `\r\n`
again — so the bytes on disk separate lines with `\r\r\n`, not CRLF.
Evaluated here on an empty feed: header and footer only, each boundary
carrying the spurious extra carriage return. -/
theorem written_file_crcrlf :
    writtenFile [] [] =
      .ok (("BEGIN:VCALENDAR\r\r\nVERSION:2.0\r\r\nPRODID:-//Fairmont State//Engage iCal//EN\r\r\nCALSCALE:GREGORIAN\r\r\nMETHOD:PUBLISH\r\r\nEND:VCALENDAR").toList) := by
  decide

theorem afterGt_suffix {l r : Str} (h : afterGt l = some r) : r <:+ l := by
  induction l with
  | nil => simp [afterGt] at h
  | cons c rest ih =>
    by_cases hc : c = '>'
    · rw [afterGt, if_pos hc, Option.some.injEq] at h
      subst h
      exact List.suffix_cons c rest
    · rw [afterGt, if_neg hc] at h
      exact (ih h).trans (List.suffix_cons c rest)

theorem afterGt_eq_none_iff {l : Str} : afterGt l = none ↔ '>' ∉ l := by
  induction l with
  | nil => simp [afterGt]
  | cons c rest ih =>
    by_cases hc : c = '>'
    · subst hc; simp [afterGt]
    · rw [afterGt, if_neg hc]
      rw [ih]
      simp only [List.mem_cons, not_or]
      constructor
      · intro h
        exact ⟨fun he => hc he.symm, h⟩
      · intro h
        exact h.2

theorem afterGt_isSome_of_mem {l : Str} (h : '>' ∈ l) : afterGt l ≠ none := by
  intro hn
  exact absurd h (afterGt_eq_none_iff.mp hn)

theorem tagEnd_suffix {l r : Str} (h : tagEnd l = some r) : r <:+ l := by
  cases l with
  | nil => simp [tagEnd] at h
  | cons c rest =>
    by_cases hc : c = '>'
    · rw [tagEnd, if_pos hc] at h; exact Option.noConfusion h
    · rw [tagEnd, if_neg hc] at h
      exact (afterGt_suffix h).trans (List.suffix_cons c rest)

theorem tagEnd_length {l r : Str} (h : tagEnd l = some r) : r.length < l.length := by
  cases l with
  | nil => simp [tagEnd] at h
  | cons c rest =>
    by_cases hc : c = '>'
    · rw [tagEnd, if_pos hc] at h; exact Option.noConfusion h
    · rw [tagEnd, if_neg hc] at h
      have := (afterGt_suffix h).length_le
      simp only [List.length_cons]
      omega

theorem tagEnd_eq_none_iff {l : Str} : tagEnd l = none ↔ (l.head? = some '>' ∨ '>' ∉ l) := by
  cases l with
  | nil => simp [tagEnd]
  | cons c rest =>
    by_cases hc : c = '>'
    · subst hc; simp [tagEnd]
    · rw [tagEnd, if_neg hc]
      simp only [List.head?_cons, Option.some.injEq, List.mem_cons]
      constructor
      · intro h
        exact Or.inr (fun hm => by
          rcases hm with hm | hm
          · exact hc hm.symm
          · exact afterGt_isSome_of_mem hm h)
      · intro h
        rcases h with h | h
        · exact absurd h hc
        · exact afterGt_eq_none_iff.mpr (fun hm => h (Or.inr hm))

theorem stripTagsF_congr : ∀ f1 f2 s, s.length ≤ f1 → s.length ≤ f2 →
    stripTagsF f1 s = stripTagsF f2 s := by
  intro f1
  induction f1 with
  | zero =>
    intro f2 s h1 _
    have : s = [] := List.eq_nil_of_length_eq_zero (by omega)
    subst this
    cases f2 <;> rfl
  | succ f ih =>
    intro f2 s h1 h2
    cases s with
    | nil => cases f2 <;> rfl
    | cons c rest =>
      cases f2 with
      | zero => simp at h2
      | succ g =>
        simp only [List.length_cons] at h1 h2
        by_cases hc : c = '<'
        · subst hc
          rw [stripTagsF, stripTagsF]
          simp only [if_pos rfl]
          cases ht : tagEnd rest with
          | none => rw [ih g rest (by omega) (by omega)]
          | some r =>
            have hr := tagEnd_length ht
            exact ih g r (by omega) (by omega)
        · rw [stripTagsF, stripTagsF]
          simp only [if_neg hc]
          rw [ih g rest (by omega) (by omega)]

theorem stripTagsF_eq {fuel : Nat} {s : Str} (h : s.length ≤ fuel) :
    stripTagsF fuel s = stripTags s :=
  stripTagsF_congr fuel s.length s h (le_refl _)

theorem stripTags_nil : stripTags [] = [] := rfl

theorem stripTags_lt_step (rest : Str) :
    stripTags ('<' :: rest) =
      (match tagEnd rest with
       | some r => stripTagsF rest.length r
       | none => '<' :: stripTagsF rest.length rest) := rfl

theorem stripTags_lt_some {rest r : Str} (h : tagEnd rest = some r) :
    stripTags ('<' :: rest) = stripTags r := by
  rw [stripTags_lt_step, h]
  exact stripTagsF_eq (by have := tagEnd_length h; omega)

theorem stripTags_lt_none {rest : Str} (h : tagEnd rest = none) :
    stripTags ('<' :: rest) = '<' :: stripTags rest := by
  rw [stripTags_lt_step, h]
  rfl

theorem stripTags_cons {c : Char} {rest : Str} (h : ¬ c = '<') :
    stripTags (c :: rest) = c :: stripTags rest := by
  unfold stripTags
  rw [show (c :: rest).length = rest.length + 1 from rfl, stripTagsF]
  simp only [if_neg h]

theorem stripTags_sublist_aux : ∀ n, ∀ s : Str, s.length ≤ n → (stripTags s).Sublist s := by
  intro n
  induction n using Nat.strong_induction_on with
  | _ n ih =>
    intro s hs
    cases s with
    | nil => simp [stripTags_nil]
    | cons c rest =>
      simp only [List.length_cons] at hs
      by_cases hc : c = '<'
      · subst hc
        cases ht : tagEnd rest with
        | none =>
          rw [stripTags_lt_none ht]
          exact (ih rest.length (by omega) rest (le_refl _)).cons₂ '<'
        | some r =>
          rw [stripTags_lt_some ht]
          have h1 : (stripTags r).Sublist r :=
            ih r.length (by have := tagEnd_length ht; omega) r (le_refl _)
          exact (h1.trans (tagEnd_suffix ht).sublist).cons '<'
      · rw [stripTags_cons hc]
        exact (ih rest.length (by omega) rest (le_refl _)).cons₂ c

theorem stripTags_sublist (s : Str) : (stripTags s).Sublist s :=
  stripTags_sublist_aux s.length s (le_refl _)

theorem mem_stripTags {c : Char} {s : Str} (h : c ∈ stripTags s) : c ∈ s :=
  (stripTags_sublist s).mem h

theorem noRetag_nil : NoRetag [] := by
  intro post h
  exact absurd h (by simp)

theorem noRetag_suffix {t u : Str} (h : NoRetag t) (hs : u <:+ t) : NoRetag u :=
  fun post hp => h post (hp.trans hs)

theorem noRetag_cons_of {c : Char} {t : Str}
    (h1 : NoRetag t) (h2 : c = '<' → (t.head? = some '>' ∨ '>' ∉ t)) :
    NoRetag (c :: t) := by
  intro post hp
  rcases List.suffix_cons_iff.mp hp with he | hs
  · rw [List.cons.injEq] at he
    obtain ⟨hc, rfl⟩ := he
    exact h2 hc.symm
  · exact h1 post hs

theorem noRetag_stripTags_aux : ∀ n, ∀ s : Str, s.length ≤ n → NoRetag (stripTags s) := by
  intro n
  induction n using Nat.strong_induction_on with
  | _ n ih =>
    intro s hs
    cases s with
    | nil => rw [stripTags_nil]; exact noRetag_nil
    | cons c rest =>
      simp only [List.length_cons] at hs
      by_cases hc : c = '<'
      · subst hc
        cases ht : tagEnd rest with
        | some r =>
          rw [stripTags_lt_some ht]
          exact ih r.length (by have := tagEnd_length ht; omega) r (le_refl _)
        | none =>
          rw [stripTags_lt_none ht]
          refine noRetag_cons_of (ih rest.length (by omega) rest (le_refl _)) ?_
          intro _
          rcases tagEnd_eq_none_iff.mp ht with hh | hn
          · left
            cases rest with
            | nil => simp at hh
            | cons a rr =>
              simp only [List.head?_cons, Option.some.injEq] at hh
              subst hh
              rw [stripTags_cons (by decide)]
              rfl
          · right
            intro hm
            exact hn (mem_stripTags hm)
      · rw [stripTags_cons hc]
        refine noRetag_cons_of (ih rest.length (by omega) rest (le_refl _)) ?_
        intro he
        exact absurd he hc

theorem noRetag_stripTags (s : Str) : NoRetag (stripTags s) :=
  noRetag_stripTags_aux s.length s (le_refl _)

theorem stripTags_of_noRetag : ∀ {t : Str}, NoRetag t → stripTags t = t := by
  intro t
  induction t with
  | nil => intro _; exact stripTags_nil
  | cons c rest ih =>
    intro h
    by_cases hc : c = '<'
    · subst hc
      have hcond := h rest (List.suffix_refl _)
      have ht : tagEnd rest = none := tagEnd_eq_none_iff.mpr hcond
      rw [stripTags_lt_none ht, ih (noRetag_suffix h (List.suffix_cons '<' rest))]
    · rw [stripTags_cons hc, ih (noRetag_suffix h (List.suffix_cons c rest))]

theorem htmlUnescapeF_no_amp : ∀ fuel (s : Str), '&' ∉ s → htmlUnescapeF fuel s = s := by
  intro fuel
  induction fuel with
  | zero => intro s _; rfl
  | succ f ih =>
    intro s hs
    cases s with
    | nil => rfl
    | cons c rest =>
      have hc : ¬ c = '&' := fun he => hs (by rw [← he]; exact List.mem_cons_self c rest)
      rw [htmlUnescapeF]
      simp only [if_neg hc]
      rw [ih rest (fun hm => hs (List.mem_cons_of_mem c hm))]

theorem htmlUnescape_no_amp {s : Str} (h : '&' ∉ s) : htmlUnescape s = s :=
  htmlUnescapeF_no_amp s.length s h

theorem asciiFilter_of_ascii {s : Str} (h : ∀ c ∈ s, c.toNat < 128) : asciiFilter s = s := by
  unfold asciiFilter
  rw [List.filter_eq_self]
  intro a ha
  simpa using h a ha

theorem mem_asciiFilter_imp {c : Char} {s : Str} (h : c ∈ asciiFilter s) :
    c ∈ s ∧ c.toNat < 128 := by
  unfold asciiFilter at h
  have := List.mem_filter.mp h
  exact ⟨this.1, by simpa using this.2⟩

theorem filter_suffix_cons {p : Char → Bool} : ∀ {t c post}, (c :: post) <:+ t.filter p →
    p c = true ∧ ∃ post0, (c :: post0) <:+ t ∧ post = post0.filter p := by
  intro t
  induction t with
  | nil =>
    intro c post h
    rw [List.filter_nil] at h
    exact absurd h (by simp)
  | cons a rest ih =>
    intro c post h
    by_cases hp : p a = true
    · rw [List.filter_cons_of_pos hp] at h
      rcases List.suffix_cons_iff.mp h with he | hs
      · rw [List.cons.injEq] at he
        obtain ⟨rfl, rfl⟩ := he
        exact ⟨hp, rest, List.suffix_refl _, rfl⟩
      · obtain ⟨hpc, post0, hs0, rfl⟩ := ih hs
        exact ⟨hpc, post0, hs0.trans (List.suffix_cons a rest), rfl⟩
    · rw [List.filter_cons_of_neg (by simpa using hp)] at h
      obtain ⟨hpc, post0, hs0, rfl⟩ := ih h
      exact ⟨hpc, post0, hs0.trans (List.suffix_cons a rest), rfl⟩

theorem noRetag_filter {t : Str} (h : NoRetag t) : NoRetag (asciiFilter t) := by
  intro post hp
  unfold asciiFilter at hp
  obtain ⟨-, post0, hs0, rfl⟩ := filter_suffix_cons hp
  rcases h post0 hs0 with hh | hn
  · left
    cases post0 with
    | nil => simp at hh
    | cons a rr =>
      simp only [List.head?_cons, Option.some.injEq] at hh
      subst hh
      rw [List.filter_cons_of_pos (by decide)]
      rfl
  · right
    intro hm
    have := List.mem_filter.mp hm
    exact hn this.1

theorem pySplitF_congr : ∀ f1 f2 s, s.length ≤ f1 → s.length ≤ f2 →
    pySplitF f1 s = pySplitF f2 s := by
  intro f1
  induction f1 with
  | zero =>
    intro f2 s h1 _
    have : s = [] := List.eq_nil_of_length_eq_zero (by omega)
    subst this
    cases f2 <;> rfl
  | succ f ih =>
    intro f2 s h1 h2
    cases s with
    | nil => cases f2 <;> rfl
    | cons c rest =>
      cases f2 with
      | zero => simp at h2
      | succ g =>
        simp only [List.length_cons] at h1 h2
        rw [pySplitF, pySplitF]
        by_cases hsp : isPySpace c = true
        · simp only [if_pos hsp]
          exact ih g rest (by omega) (by omega)
        · simp only [if_neg hsp]
          have hd : (rest.dropWhile nonSp).length ≤ rest.length :=
            (List.dropWhile_sublist nonSp).length_le
          rw [ih g (rest.dropWhile nonSp) (by omega) (by omega)]

theorem pySplitF_eq {fuel : Nat} {s : Str} (h : s.length ≤ fuel) :
    pySplitF fuel s = pySplit s :=
  pySplitF_congr fuel s.length s h (le_refl _)

theorem pySplit_nil : pySplit [] = [] := rfl

theorem pySplit_space {c : Char} {rest : Str} (h : isPySpace c = true) :
    pySplit (c :: rest) = pySplit rest := by
  unfold pySplit
  rw [show (c :: rest).length = rest.length + 1 from rfl, pySplitF, if_pos h]

theorem pySplit_word {c : Char} {rest : Str} (h : isPySpace c = false) :
    pySplit (c :: rest) = (c :: rest.takeWhile nonSp) :: pySplit (rest.dropWhile nonSp) := by
  unfold pySplit
  rw [show (c :: rest).length = rest.length + 1 from rfl, pySplitF,
    if_neg (by rw [h]; exact Bool.false_ne_true)]
  congr 1
  exact pySplitF_eq (List.dropWhile_sublist nonSp).length_le

theorem pySplit_wf_aux : ∀ n, ∀ t : Str, t.length ≤ n → ∀ w ∈ pySplit t,
    w ≠ [] ∧ (∀ c ∈ w, nonSp c = true) ∧ (∀ c ∈ w, c ∈ t) := by
  intro n
  induction n using Nat.strong_induction_on with
  | _ n ih =>
    intro t ht w hw
    cases t with
    | nil => rw [pySplit_nil] at hw; exact absurd hw (by simp)
    | cons c rest =>
      simp only [List.length_cons] at ht
      by_cases hsp : isPySpace c = true
      · rw [pySplit_space hsp] at hw
        obtain ⟨h1, h2, h3⟩ := ih rest.length (by omega) rest (le_refl _) w hw
        exact ⟨h1, h2, fun a ha => List.mem_cons_of_mem c (h3 a ha)⟩
      · have hspf : isPySpace c = false := by
          cases hb : isPySpace c
          · rfl
          · exact absurd hb hsp
        rw [pySplit_word hspf] at hw
        rcases List.mem_cons.mp hw with hw | hw
        · subst hw
          refine ⟨by simp, ?_, ?_⟩
          · intro a ha
            rcases List.mem_cons.mp ha with ha | ha
            · subst ha
              unfold nonSp
              rw [hspf]
              rfl
            · exact List.mem_takeWhile_imp ha
          · intro a ha
            rcases List.mem_cons.mp ha with ha | ha
            · subst ha; exact List.mem_cons_self _ _
            · exact List.mem_cons_of_mem c ((List.takeWhile_sublist nonSp).mem ha)
        · have hlen : (rest.dropWhile nonSp).length ≤ rest.length :=
            (List.dropWhile_sublist nonSp).length_le
          obtain ⟨h1, h2, h3⟩ :=
            ih rest.length (by omega) (rest.dropWhile nonSp) (by omega) w hw
          refine ⟨h1, h2, fun a ha => List.mem_cons_of_mem c ?_⟩
          exact (List.dropWhile_sublist nonSp).mem (h3 a ha)

theorem pySplit_wf (t : Str) : ∀ w ∈ pySplit t,
    w ≠ [] ∧ (∀ c ∈ w, nonSp c = true) ∧ (∀ c ∈ w, c ∈ t) :=
  pySplit_wf_aux t.length t (le_refl _)

theorem takeWhile_append_all {p : Char → Bool} :
    ∀ {xs ys : Str}, (∀ a ∈ xs, p a = true) → (xs ++ ys).takeWhile p = xs ++ ys.takeWhile p := by
  intro xs
  induction xs with
  | nil => intro ys _; simp
  | cons a r ih =>
    intro ys h
    rw [List.cons_append, List.takeWhile_cons_of_pos (h a (List.mem_cons_self a r)),
      ih (fun b hb => h b (List.mem_cons_of_mem a hb)), List.cons_append]

theorem dropWhile_append_all {p : Char → Bool} :
    ∀ {xs ys : Str}, (∀ a ∈ xs, p a = true) → (xs ++ ys).dropWhile p = ys.dropWhile p := by
  intro xs
  induction xs with
  | nil => intro ys _; simp
  | cons a r ih =>
    intro ys h
    rw [List.cons_append, List.dropWhile_cons_of_pos (h a (List.mem_cons_self a r)),
      ih (fun b hb => h b (List.mem_cons_of_mem a hb))]

theorem takeWhile_all {p : Char → Bool} {l : Str} (h : ∀ a ∈ l, p a = true) :
    l.takeWhile p = l := by
  have := @takeWhile_append_all p l [] h
  simpa using this

theorem dropWhile_all {p : Char → Bool} {l : Str} (h : ∀ a ∈ l, p a = true) :
    l.dropWhile p = [] := by
  have := @dropWhile_append_all p l [] h
  simpa using this

theorem joinSpace_nil : joinSpace [] = [] := rfl

theorem joinSpace_single (w : Str) : joinSpace [w] = w := rfl

theorem joinSpace_cons2 (w v : Str) (ws : List Str) :
    joinSpace (w :: v :: ws) = w ++ ' ' :: joinSpace (v :: ws) := rfl

theorem mem_joinSpace : ∀ {ws : List Str} {c : Char}, c ∈ joinSpace ws →
    (∃ w ∈ ws, c ∈ w) ∨ c = ' ' := by
  intro ws
  induction ws with
  | nil => intro c h; rw [joinSpace_nil] at h; exact absurd h (by simp)
  | cons w ws ih =>
    cases ws with
    | nil =>
      intro c h
      rw [joinSpace_single] at h
      exact Or.inl ⟨w, by simp, h⟩
    | cons v ws2 =>
      intro c h
      rw [joinSpace_cons2] at h
      rcases List.mem_append.mp h with h | h
      · exact Or.inl ⟨w, by simp, h⟩
      · rcases List.mem_cons.mp h with h | h
        · exact Or.inr h
        · rcases ih h with ⟨w2, hw2, hc⟩ | h
          · exact Or.inl ⟨w2, List.mem_cons_of_mem w hw2, hc⟩
          · exact Or.inr h

theorem pySplit_joinSpace : ∀ ws : List Str,
    (∀ w ∈ ws, w ≠ [] ∧ ∀ c ∈ w, nonSp c = true) → pySplit (joinSpace ws) = ws := by
  intro ws
  induction ws with
  | nil => intro _; rfl
  | cons w ws ih =>
    intro hwf
    obtain ⟨hne, hns⟩ := hwf w (List.mem_cons_self w ws)
    obtain ⟨c, w', rfl⟩ : ∃ c w', w = c :: w' := by
      cases w with
      | nil => exact absurd rfl hne
      | cons c w' => exact ⟨c, w', rfl⟩
    have hcns : nonSp c = true := hns c (List.mem_cons_self c w')
    have hw'ns : ∀ a ∈ w', nonSp a = true := fun a ha => hns a (List.mem_cons_of_mem c ha)
    have hcsp : isPySpace c = false := by
      unfold nonSp at hcns
      cases hb : isPySpace c
      · rfl
      · rw [hb] at hcns; exact absurd hcns (by decide)
    cases ws with
    | nil =>
      rw [joinSpace_single, pySplit_word hcsp, takeWhile_all hw'ns, dropWhile_all hw'ns,
        pySplit_nil]
    | cons v ws2 =>
      rw [joinSpace_cons2, List.cons_append, pySplit_word hcsp,
        takeWhile_append_all hw'ns, List.takeWhile_cons_of_neg (by decide),
        List.append_nil, dropWhile_append_all hw'ns,
        List.dropWhile_cons_of_neg (by decide), pySplit_space (by decide)]
      rw [ih (fun u hu => hwf u (List.mem_cons_of_mem _ hu))]

theorem mem_of_getLast?_eq {l : Str} {a : Char} (h : l.getLast? = some a) : a ∈ l := by
  rw [List.getLast?_eq_head?_reverse] at h
  have ha : a ∈ l.reverse := by
    cases hr : l.reverse with
    | nil => rw [hr] at h; exact Option.noConfusion h
    | cons x xs =>
      rw [hr, List.head?_cons, Option.some.injEq] at h
      subst h
      exact List.mem_cons_self _ _
  exact List.mem_reverse.mp ha

theorem dropWhile_head_neg {p : Char → Bool} {l : Str}
    (h : ∀ a, l.head? = some a → p a = false) : l.dropWhile p = l := by
  cases l with
  | nil => rfl
  | cons a r =>
    rw [List.dropWhile_cons_of_neg]
    rw [h a rfl]
    exact Bool.false_ne_true

theorem pyStrip_eq_self {l : Str}
    (h1 : ∀ a, l.head? = some a → isPySpace a = false)
    (h2 : ∀ a, l.getLast? = some a → isPySpace a = false) : pyStrip l = l := by
  unfold pyStrip
  rw [dropWhile_head_neg h1]
  rw [dropWhile_head_neg (fun a ha => h2 a (by rwa [List.head?_reverse] at ha))]
  rw [List.reverse_reverse]

theorem joinSpace_head {w : Str} {ws : List Str} (hne : w ≠ []) :
    (joinSpace (w :: ws)).head? = w.head? := by
  obtain ⟨c, w', rfl⟩ : ∃ c w', w = c :: w' := by
    cases w with
    | nil => exact absurd rfl hne
    | cons c w' => exact ⟨c, w', rfl⟩
  cases ws with
  | nil => rfl
  | cons v ws2 => rfl

theorem joinSpace_ne_nil {w : Str} {ws : List Str} (hne : w ≠ []) :
    joinSpace (w :: ws) ≠ [] := by
  intro h
  have := @joinSpace_head w ws hne
  rw [h] at this
  cases w with
  | nil => exact hne rfl
  | cons c w' => exact Option.noConfusion this

theorem getLast?_isSome_of_ne_nil : ∀ {l : Str}, l ≠ [] → ∃ b, l.getLast? = some b := by
  intro l
  induction l with
  | nil => intro h; exact absurd rfl h
  | cons a r ih =>
    intro _
    cases r with
    | nil => exact ⟨a, rfl⟩
    | cons c r2 =>
      obtain ⟨x, hx⟩ := ih (by simp)
      exact ⟨x, by rw [List.getLast?_cons_cons]; exact hx⟩

theorem joinSpace_getLast : ∀ {ws : List Str},
    (∀ w ∈ ws, w ≠ [] ∧ ∀ c ∈ w, nonSp c = true) →
    ∀ a, (joinSpace ws).getLast? = some a → isPySpace a = false := by
  intro ws
  induction ws with
  | nil =>
    intro _ a ha
    rw [joinSpace_nil] at ha
    exact Option.noConfusion ha
  | cons w ws ih =>
    intro hwf a ha
    cases ws with
    | nil =>
      rw [joinSpace_single] at ha
      obtain ⟨-, hns⟩ := hwf w (List.mem_cons_self w [])
      have := hns a (mem_of_getLast?_eq ha)
      unfold nonSp at this
      cases hb : isPySpace a
      · rfl
      · rw [hb] at this; exact absurd this (by decide)
    | cons v ws2 =>
      rw [joinSpace_cons2, List.getLast?_append] at ha
      have hvne : v ≠ [] := (hwf v (List.mem_cons_of_mem w (List.mem_cons_self v ws2))).1
      obtain ⟨b, hb⟩ := getLast?_isSome_of_ne_nil
        (show ' ' :: joinSpace (v :: ws2) ≠ [] by simp)
      rw [hb] at ha
      have hba : b = a := by simpa [Option.or] using ha
      subst hba
      obtain ⟨j, J', hJ⟩ : ∃ j J', joinSpace (v :: ws2) = j :: J' := by
        cases hj : joinSpace (v :: ws2) with
        | nil => exact absurd hj (joinSpace_ne_nil hvne)
        | cons j J' => exact ⟨j, J', rfl⟩
      rw [hJ, List.getLast?_cons_cons] at hb
      exact ih (fun u hu => hwf u (List.mem_cons_of_mem w hu)) b (by rw [hJ]; exact hb)

theorem nonSp_isPySpace_false {a : Char} (h : nonSp a = true) : isPySpace a = false := by
  unfold nonSp at h
  cases hb : isPySpace a
  · rfl
  · rw [hb] at h; exact absurd h (by decide)

theorem collapseWs_eq_join (t : Str) : collapseWs t = joinSpace (pySplit t) := by
  unfold collapseWs
  cases hw : pySplit t with
  | nil => rw [joinSpace_nil]; rfl
  | cons w ws =>
    have hwf : ∀ u ∈ w :: ws, u ≠ [] ∧ ∀ c ∈ u, nonSp c = true := by
      intro u hu
      have := pySplit_wf t u (by rw [hw]; exact hu)
      exact ⟨this.1, this.2.1⟩
    obtain ⟨hne, hns⟩ := hwf w (List.mem_cons_self w ws)
    apply pyStrip_eq_self
    · intro a ha
      rw [joinSpace_head hne] at ha
      have ham : a ∈ w := by
        cases w with
        | nil => exact absurd rfl hne
        | cons c w' =>
          rw [List.head?_cons, Option.some.injEq] at ha
          subst ha
          exact List.mem_cons_self _ _
      exact nonSp_isPySpace_false (hns a ham)
    · intro a ha
      exact joinSpace_getLast hwf a ha

theorem mem_pyStrip {c : Char} {l : Str} (h : c ∈ pyStrip l) : c ∈ l := by
  unfold pyStrip at h
  have h1 := List.mem_reverse.mp h
  have h2 := (List.dropWhile_sublist isPySpace).mem h1
  have h3 := List.mem_reverse.mp h2
  exact (List.dropWhile_sublist isPySpace).mem h3

theorem mem_collapseWs {c : Char} {t : Str} (h : c ∈ collapseWs t) : c ∈ t ∨ c = ' ' := by
  unfold collapseWs at h
  have h1 := mem_pyStrip h
  rcases mem_joinSpace h1 with ⟨w, hw, hc⟩ | h2
  · exact Or.inl ((pySplit_wf t w hw).2.2 c hc)
  · exact Or.inr h2

theorem collapseWs_idem (t : Str) : collapseWs (collapseWs t) = collapseWs t := by
  rw [collapseWs_eq_join t, collapseWs_eq_join (joinSpace (pySplit t))]
  rw [pySplit_joinSpace (pySplit t)
    (fun w hw => ⟨(pySplit_wf t w hw).1, (pySplit_wf t w hw).2.1⟩)]

theorem suffix_append_right (z : Str) {u v : Str} (h : u <:+ v) : (u ++ z) <:+ (v ++ z) := by
  obtain ⟨k, rfl⟩ := h
  exact ⟨k, by rw [List.append_assoc]⟩

theorem suffix_append_split {l x y : Str} (h : l <:+ x ++ y) :
    l <:+ y ∨ ∃ x2, x2 <:+ x ∧ x2 ≠ [] ∧ l = x2 ++ y := by
  induction x with
  | nil => left; simpa using h
  | cons a x2 ih =>
    rw [List.cons_append] at h
    rcases List.suffix_cons_iff.mp h with he | hs
    · right
      exact ⟨a :: x2, List.suffix_refl _, by simp, by rw [he, List.cons_append]⟩
    · rcases ih hs with h1 | ⟨x3, hx1, hx2, hx3⟩
      · left; exact h1
      · right; exact ⟨x3, hx1.trans (List.suffix_cons a x2), hx2, hx3⟩

theorem dropWhile_head_isPySpace : ∀ {l : Str} {a : Char},
    ((l.dropWhile nonSp).head? = some a) → isPySpace a = true := by
  intro l
  induction l with
  | nil => intro a h; exact absurd h (by simp)
  | cons c rest ih =>
    intro a h
    by_cases hn : nonSp c = true
    · rw [List.dropWhile_cons_of_pos hn] at h
      exact ih h
    · rw [List.dropWhile_cons_of_neg hn] at h
      rw [List.head?_cons, Option.some.injEq] at h
      subst h
      unfold nonSp at hn
      simpa using hn

theorem noRetag_join_aux : ∀ n, ∀ t : Str, t.length ≤ n → NoRetag t →
    NoRetag (joinSpace (pySplit t)) := by
  intro n
  induction n using Nat.strong_induction_on with
  | _ n ih =>
    intro t ht hP
    cases t with
    | nil => rw [pySplit_nil, joinSpace_nil]; exact noRetag_nil
    | cons c rest =>
      simp only [List.length_cons] at ht
      by_cases hsp : isPySpace c = true
      · rw [pySplit_space hsp]
        exact ih rest.length (by omega) rest (le_refl _)
          (noRetag_suffix hP (List.suffix_cons c rest))
      · have hspf : isPySpace c = false := by
          cases hb : isPySpace c
          · rfl
          · exact absurd hb hsp
        rw [pySplit_word hspf]
        have hrest : rest.takeWhile nonSp ++ rest.dropWhile nonSp = rest :=
          List.takeWhile_append_dropWhile nonSp rest
        have hrsuff : rest.dropWhile nonSp <:+ rest := List.dropWhile_suffix nonSp
        have hrlen : (rest.dropWhile nonSp).length ≤ rest.length := hrsuff.length_le
        have hIHr : NoRetag (joinSpace (pySplit (rest.dropWhile nonSp))) :=
          ih rest.length (by omega) (rest.dropWhile nonSp) (by omega)
            (noRetag_suffix hP (hrsuff.trans (List.suffix_cons c rest)))
        have hlift : ∀ x2 : Str, ('<' :: x2) <:+ (c :: rest.takeWhile nonSp) →
            ('<' :: (x2 ++ rest.dropWhile nonSp)) <:+ (c :: rest) := by
          intro x2 hx
          have h0 := suffix_append_right (rest.dropWhile nonSp) hx
          rw [List.cons_append, List.cons_append, hrest] at h0
          exact h0
        have hheadr : ∀ a : Char, ¬ ((rest.dropWhile nonSp).head? = some '>') := by
          intro a hh
          have := dropWhile_head_isPySpace hh
          exact absurd this (by decide)
        cases hps : pySplit (rest.dropWhile nonSp) with
        | nil =>
          rw [joinSpace_single]
          intro post hpost
          have hbig := hlift post hpost
          rcases hP (post ++ rest.dropWhile nonSp) hbig with hh | hn
          · cases post with
            | nil =>
              rw [List.nil_append] at hh
              exact absurd hh (hheadr '>')
            | cons p0 post2 =>
              left
              rw [List.cons_append, List.head?_cons] at hh
              rw [List.head?_cons]
              exact hh
          · right
            intro hm
            exact hn (List.mem_append.mpr (Or.inl hm))
        | cons w2 ws2 =>
          rw [joinSpace_cons2]
          intro post hpost
          rcases suffix_append_split hpost with hs | ⟨x2, hx1, hx2, hx3⟩
          · rcases List.suffix_cons_iff.mp hs with he | hs2
            · rw [List.cons.injEq] at he
              exact absurd he.1 (by decide)
            · have hnr2 : NoRetag (joinSpace (w2 :: ws2)) := hps ▸ hIHr
              exact hnr2 post hs2
          · obtain ⟨a0, x3, rfl⟩ : ∃ a0 x3, x2 = a0 :: x3 := by
              cases x2 with
              | nil => exact absurd rfl hx2
              | cons a0 x3 => exact ⟨a0, x3, rfl⟩
            rw [List.cons_append, List.cons.injEq] at hx3
            obtain ⟨ha0, hpost2⟩ := hx3
            subst ha0
            have hbig := hlift x3 hx1
            rcases hP (x3 ++ rest.dropWhile nonSp) hbig with hh | hn
            · cases x3 with
              | nil =>
                rw [List.nil_append] at hh
                exact absurd hh (hheadr '>')
              | cons q x4 =>
                left
                rw [List.cons_append, List.head?_cons] at hh
                rw [hpost2, List.cons_append, List.head?_cons]
                exact hh
            · right
              rw [hpost2]
              intro hm
              rcases List.mem_append.mp hm with hm | hm
              · exact hn (List.mem_append.mpr (Or.inl hm))
              · rcases List.mem_cons.mp hm with hm | hm
                · exact absurd hm (by decide)
                · have hmj : ('>' : Char) ∈ joinSpace (pySplit (rest.dropWhile nonSp)) := by
                    rw [hps]
                    exact hm
                  rcases mem_joinSpace hmj with ⟨wq, hwq, hcq⟩ | heq
                  · have : ('>' : Char) ∈ rest.dropWhile nonSp :=
                      (pySplit_wf (rest.dropWhile nonSp) wq hwq).2.2 '>' hcq
                    exact hn (List.mem_append.mpr (Or.inr this))
                  · exact absurd heq (by decide)

theorem noRetag_collapseWs {t : Str} (h : NoRetag t) : NoRetag (collapseWs t) := by
  rw [collapseWs_eq_join]
  exact noRetag_join_aux t.length t (le_refl _) h

theorem strip_html_expand {s : Str} (hs : ¬ s = []) (hamp : '&' ∉ s) :
    strip_html s = collapseWs (asciiFilter (stripTags s)) := by
  unfold strip_html
  rw [if_neg hs, htmlUnescape_no_amp (fun hm => hamp (mem_stripTags hm))]

/-- C6 (amended): the sanitizer is idempotent on every input containing no
HTML character reference (no `&`): `strip_html (strip_html s) = strip_html s`.
(On entity-bearing inputs idempotence fails — see
`strip_html_not_idempotent` — because entity decoding can create fresh
`<...>` spans that only the second pass removes.) -/
theorem strip_html_idem (s : Str) (h : '&' ∉ s) :
    strip_html (strip_html s) = strip_html s := by
  by_cases hs : s = []
  · subst hs; rfl
  · rw [strip_html_expand hs h]
    by_cases ho : collapseWs (asciiFilter (stripTags s)) = []
    · rw [ho]; rfl
    · have hampt1 : '&' ∉ stripTags s := fun hm => h (mem_stripTags hm)
      have hampf : '&' ∉ asciiFilter (stripTags s) := fun hm =>
        hampt1 (mem_asciiFilter_imp hm).1
      have hampo : '&' ∉ collapseWs (asciiFilter (stripTags s)) := by
        intro hm
        rcases mem_collapseWs hm with hm2 | hm2
        · exact hampf hm2
        · exact absurd hm2 (by decide)
      have hascii : ∀ c ∈ collapseWs (asciiFilter (stripTags s)), c.toNat < 128 := by
        intro c hc
        rcases mem_collapseWs hc with hm2 | hm2
        · exact (mem_asciiFilter_imp hm2).2
        · subst hm2; decide
      have hnr : NoRetag (collapseWs (asciiFilter (stripTags s))) :=
        noRetag_collapseWs (noRetag_filter (noRetag_stripTags s))
      unfold strip_html
      rw [if_neg ho, stripTags_of_noRetag hnr, htmlUnescape_no_amp hampo,
        asciiFilter_of_ascii hascii]
      exact collapseWs_idem (asciiFilter (stripTags s))

/-- Counterexample to C6 as stated: `strip_html` is not idempotent.  On
`"&lt;a&gt;"` the first pass decodes the entities to `"<a>"`; the second
pass then removes `<a>` as a tag, leaving the empty string. -/
theorem strip_html_not_idempotent :
    strip_html (strip_html ("&lt;a&gt;".toList)) ≠ strip_html ("&lt;a&gt;".toList) := by
  decide

/-- Witness for C6 on an `&`-free HTML fragment. -/
theorem strip_html_idem_witness :
    strip_html (strip_html ("<p>Career  Fair</p>".toList))
      = strip_html ("<p>Career  Fair</p>".toList) :=
  strip_html_idem ("<p>Career  Fair</p>".toList) (by decide)

theorem daysInMonth_pos (y m : Nat) : 1 ≤ daysInMonth y m := by
  unfold daysInMonth
  split
  · split <;> omega
  · split <;> omega

theorem isLeap_iff {y : Nat} :
    isLeap y = true ↔ (y % 4 = 0 ∧ (¬ y % 100 = 0 ∨ y % 400 = 0)) := by
  unfold isLeap
  simp [Bool.and_eq_true, Bool.or_eq_true, Bool.not_eq_true']

theorem isLeap_false_iff {y : Nat} :
    isLeap y = false ↔ ¬ (y % 4 = 0 ∧ (¬ y % 100 = 0 ∨ y % 400 = 0)) := by
  constructor
  · intro hf hc
    rw [isLeap_iff.mpr hc] at hf
    exact Bool.noConfusion hf
  · intro hn
    cases hb : isLeap y
    · rfl
    · exact absurd (isLeap_iff.mp hb) hn

theorem daysBefore_succ (y m : Nat) (h1 : 1 ≤ m) (h2 : m ≤ 11) :
    daysBefore (isLeap y) (m + 1) = daysBefore (isLeap y) m + daysInMonth y m := by
  interval_cases m <;> cases hl : isLeap y <;>
    simp [daysBefore, daysInMonth, hl]

theorem daysBefore_one (l : Bool) : daysBefore l 1 = 0 := by
  cases l <;> simp [daysBefore]

theorem daysInMonth_12 (y : Nat) : daysInMonth y 12 = 31 := by
  simp [daysInMonth]

theorem rataDie_year_step_leap (y : Nat) (h1 : 1 ≤ y) (h4 : y % 4 = 0)
    (hc : ¬ y % 100 = 0 ∨ y % 400 = 0) :
    365 * y + y / 4 + y / 400 + 0 + 1 - y / 100 =
    365 * (y - 1) + (y - 1) / 4 + (y - 1) / 400 + 335 + 31 - (y - 1) / 100 + 1 := by
  rcases hc with h100 | h400 <;> omega

theorem rataDie_year_step_common (y : Nat) (h1 : 1 ≤ y)
    (hnl : ¬ (y % 4 = 0 ∧ (¬ y % 100 = 0 ∨ y % 400 = 0))) :
    365 * y + y / 4 + y / 400 + 0 + 1 - y / 100 =
    365 * (y - 1) + (y - 1) / 4 + (y - 1) / 400 + 334 + 31 - (y - 1) / 100 + 1 := by
  by_cases h4 : y % 4 = 0
  · by_cases h100 : y % 100 = 0
    · have h400 : ¬ y % 400 = 0 := fun hx => hnl ⟨h4, Or.inr hx⟩
      omega
    · exact absurd ⟨h4, Or.inl h100⟩ hnl
  · omega

theorem rataDieN_nextDay {y m d : Nat} (hv : ValidDate y m d) {y2 m2 d2 : Nat}
    (h : nextDay y m d = some (y2, m2, d2)) :
    rataDieN y2 m2 d2 = rataDieN y m d + 1 := by
  obtain ⟨hy1, hy2, hm1, hm2, hd1, hd2⟩ := hv
  unfold nextDay at h
  split at h
  · simp only [Option.some.injEq, Prod.mk.injEq] at h
    obtain ⟨rfl, rfl, rfl⟩ := h
    unfold rataDieN
    omega
  · split at h
    · simp only [Option.some.injEq, Prod.mk.injEq] at h
      obtain ⟨rfl, rfl, rfl⟩ := h
      have hdm : d = daysInMonth y m := by omega
      subst hdm
      unfold rataDieN
      rw [daysBefore_succ y m hm1 (by omega)]
      omega
    · split at h
      · simp only [Option.some.injEq, Prod.mk.injEq] at h
        obtain ⟨rfl, rfl, rfl⟩ := h
        have hm12 : m = 12 := by omega
        subst hm12
        have hd31 : d = 31 := by
          have := daysInMonth_12 y
          omega
        subst hd31
        unfold rataDieN
        rw [daysBefore_one, show y + 1 - 1 = y from rfl]
        by_cases hl : isLeap y = true
        · rw [show daysBefore (isLeap y) 12 = 335 from by simp [daysBefore, hl]]
          obtain ⟨h4, hc⟩ := isLeap_iff.mp hl
          exact rataDie_year_step_leap y hy1 h4 hc
        · have hlf : isLeap y = false := by
            cases hb : isLeap y
            · rfl
            · exact absurd hb hl
          rw [show daysBefore (isLeap y) 12 = 334 from by simp [daysBefore, hlf]]
          exact rataDie_year_step_common y hy1 (isLeap_false_iff.mp hlf)
      · exact Option.noConfusion h

theorem nextDay_valid {y m d : Nat} (hv : ValidDate y m d) {y2 m2 d2 : Nat}
    (h : nextDay y m d = some (y2, m2, d2)) : ValidDate y2 m2 d2 := by
  obtain ⟨hy1, hy2, hm1, hm2, hd1, hd2⟩ := hv
  unfold nextDay at h
  split at h
  · simp only [Option.some.injEq, Prod.mk.injEq] at h
    obtain ⟨rfl, rfl, rfl⟩ := h
    exact ⟨hy1, hy2, hm1, hm2, by omega, by omega⟩
  · split at h
    · simp only [Option.some.injEq, Prod.mk.injEq] at h
      obtain ⟨rfl, rfl, rfl⟩ := h
      exact ⟨hy1, hy2, by omega, by omega, le_refl 1, daysInMonth_pos y (m + 1)⟩
    · split at h
      · simp only [Option.some.injEq, Prod.mk.injEq] at h
        obtain ⟨rfl, rfl, rfl⟩ := h
        exact ⟨by omega, by omega, by omega, by omega, by omega,
          le_trans (by omega) (daysInMonth_pos (y + 1) 1)⟩
      · exact Option.noConfusion h

theorem prevDay_nextDay {y m d : Nat} (hv : ValidDate y m d) {py pm pd : Nat}
    (h : prevDay y m d = some (py, pm, pd)) :
    nextDay py pm pd = some (y, m, d) ∧ ValidDate py pm pd := by
  obtain ⟨hy1, hy2, hm1, hm2, hd1, hd2⟩ := hv
  unfold prevDay at h
  split at h
  · simp only [Option.some.injEq, Prod.mk.injEq] at h
    obtain ⟨rfl, rfl, rfl⟩ := h
    constructor
    · unfold nextDay
      rw [if_pos (by omega)]
      simp only [Option.some.injEq, Prod.mk.injEq, true_and]
      omega
    · exact ⟨hy1, hy2, hm1, hm2, by omega, by omega⟩
  · split at h
    · simp only [Option.some.injEq, Prod.mk.injEq] at h
      obtain ⟨rfl, rfl, rfl⟩ := h
      have hd : d = 1 := by omega
      constructor
      · unfold nextDay
        rw [if_neg (by omega), if_pos (by omega)]
        simp only [Option.some.injEq, Prod.mk.injEq, true_and]
        omega
      · exact ⟨hy1, hy2, by omega, by omega, daysInMonth_pos y (m - 1), le_refl _⟩
    · split at h
      · simp only [Option.some.injEq, Prod.mk.injEq] at h
        obtain ⟨rfl, rfl, rfl⟩ := h
        have h31 : daysInMonth (y - 1) 12 = 31 := daysInMonth_12 (y - 1)
        constructor
        · unfold nextDay
          rw [if_neg (by omega), if_neg (by omega), if_pos (by omega)]
          simp only [Option.some.injEq, Prod.mk.injEq]
          omega
        · exact ⟨by omega, by omega, by omega, by omega, by omega, by omega⟩
      · exact Option.noConfusion h

/-- Inversion of the `datetime` constructor: success pins the fields and
yields every range check. -/
theorem mkDatetime_some {y mo d h mi s us : Nat} {tz : Option Int} {dt : PyDateTime}
    (hm : mkDatetime y mo d h mi s us tz = some dt) :
    dt = ⟨y, mo, d, h, mi, s, us, tz⟩ ∧ ValidDate y mo d ∧
      h ≤ 23 ∧ mi ≤ 59 ∧ s ≤ 59 ∧ us ≤ 999999 := by
  unfold mkDatetime at hm
  split at hm
  · rename_i hc
    obtain ⟨h1, h2, h3, h4, h5, h6, h7, h8, h9, h10⟩ := hc
    simp only [Option.some.injEq] at hm
    exact ⟨hm.symm, ⟨h1, h2, h3, h4, h5, h6⟩, h7, h8, h9, h10⟩
  · exact Option.noConfusion hm

/-- Every datetime produced by `isoparse` has in-range fields: a valid
Gregorian date in years 1..9999 and clock components within bounds. -/
theorem isoparse_valid {s : Str} {dt : PyDateTime} (h : isoparse s = some dt) :
    ValidDate dt.year dt.month dt.day ∧ dt.hour ≤ 23 ∧ dt.minute ≤ 59 ∧
      dt.second ≤ 59 ∧ dt.micro ≤ 999999 := by
  unfold isoparse at h
  split at h
  · exact Option.noConfusion h
  · rename_i y mo d rest heq
    split at h
    · obtain ⟨hdt, hv, hh, hmi, hs, hus⟩ := mkDatetime_some h
      subst hdt
      exact ⟨hv, Nat.zero_le 23, Nat.zero_le 59, Nat.zero_le 59, Nat.zero_le 999999⟩
    · rename_i c' timeStr
      split at h
      · exact Option.noConfusion h
      · rename_i t hpt
        split at h
        · split at h
          · exact Option.noConfusion h
          · rename_i dt0 hmk
            obtain ⟨hdt0, hv0, hz0, hmi0, hs0, hus0⟩ := mkDatetime_some hmk
            have hey : dt0.year = y := by rw [hdt0]
            have hem : dt0.month = mo := by rw [hdt0]
            have hed : dt0.day = d := by rw [hdt0]
            rw [hey, hem, hed] at h
            split at h
            · exact Option.noConfusion h
            · rename_i y2 m2 d2 hnd
              simp only [Option.some.injEq] at h
              subst h
              exact ⟨nextDay_valid hv0 hnd, Nat.zero_le 23, hmi0, hs0, hus0⟩
        · obtain ⟨hdt, hv, hh, hmi, hs, hus⟩ := mkDatetime_some h
          subst hdt
          exact ⟨hv, hh, hmi, hs, hus⟩

/-- `astimezone(timezone.utc)` on a datetime already stamped UTC offset 0
is the identity: no borrow, no carry, hour and minute reconstructed
unchanged. -/
theorem astimezone_zero (y m d h mi s us : Nat)
    (hh : h ≤ 23) (hmi : mi ≤ 59) :
    astimezoneUTC ⟨y, m, d, h, mi, s, us, some 0⟩ =
      some ⟨y, m, d, h, mi, s, us, some 0⟩ := by
  unfold astimezoneUTC
  simp only
  rw [if_neg (by omega)]
  unfold shiftClock
  rw [if_neg (by omega), if_neg (by omega)]
  have h1 : ((h : Int) * 60 + (mi : Int) - 0).toNat / 60 = h := by omega
  have h2 : ((h : Int) * 60 + (mi : Int) - 0).toNat % 60 = mi := by omega
  rw [h1, h2]

/-- Correctness of `astimezone(timezone.utc)` on an aware in-range
datetime: when it succeeds, the result denotes the same instant, is
stamped UTC, keeps seconds and microseconds, and is again in range. -/
theorem astimezone_instant {dt u : PyDateTime}
    (hv : ValidDate dt.year dt.month dt.day)
    (hh : dt.hour ≤ 23) (hmi : dt.minute ≤ 59)
    (ha : astimezoneUTC dt = some u) :
    instantMin u = instantMin dt ∧ u.tz = some 0 ∧
      u.second = dt.second ∧ u.micro = dt.micro ∧
      ValidDate u.year u.month u.day ∧ u.hour ≤ 23 ∧ u.minute ≤ 59 := by
  unfold astimezoneUTC at ha
  split at ha
  · exact Option.noConfusion ha
  · rename_i off htz
    split at ha
    · exact Option.noConfusion ha
    · rename_i hoff
      push_neg at hoff
      obtain ⟨hoff1, hoff2⟩ := hoff
      unfold shiftClock at ha
      split at ha
      · rename_i ht
        rw [Option.map_eq_some'] at ha
        obtain ⟨⟨py, pm, pd⟩, hp, rfl⟩ := ha
        obtain ⟨hnext, hvp⟩ := prevDay_nextDay hv hp
        have hR := rataDieN_nextDay hvp hnext
        refine ⟨?_, rfl, rfl, rfl, hvp, ?_, ?_⟩
        · simp only [instantMin, htz, Option.getD_some]
          omega
        · simp only
          omega
        · simp only
          omega
      · rename_i ht1
        split at ha
        · rename_i ht2
          rw [Option.map_eq_some'] at ha
          obtain ⟨⟨ny, nm, nd⟩, hn, rfl⟩ := ha
          have hvn := nextDay_valid hv hn
          have hR := rataDieN_nextDay hv hn
          refine ⟨?_, rfl, rfl, rfl, hvn, ?_, ?_⟩
          · simp only [instantMin, htz, Option.getD_some]
            omega
          · simp only
            omega
          · simp only
            omega
        · rename_i ht2
          simp only [Option.some.injEq] at ha
          subst ha
          refine ⟨?_, rfl, rfl, rfl, hv, ?_, ?_⟩
          · simp only [instantMin, htz, Option.getD_some]
            omega
          · simp only
            omega
          · simp only
            omega

/-- The digit printer ignores its fuel once the fuel exceeds the number. -/
theorem digitsF_congr (n : Nat) : ∀ f1 f2, n < f1 → n < f2 →
    digitsF f1 n = digitsF f2 n := by
  induction n using Nat.strong_induction_on with
  | _ n ih =>
    intro f1 f2 h1 h2
    obtain ⟨g1, rfl⟩ : ∃ g, f1 = g + 1 := ⟨f1 - 1, by omega⟩
    obtain ⟨g2, rfl⟩ : ∃ g, f2 = g + 1 := ⟨f2 - 1, by omega⟩
    unfold digitsF
    by_cases hn : n < 10
    · rw [if_pos hn, if_pos hn]
    · rw [if_neg hn, if_neg hn,
        ih (n / 10) (by omega) g1 g2 (by omega) (by omega)]

/-- A one-digit number prints as its digit. -/
theorem natDigits_len1 (n : Nat) (h : n < 10) :
    natDigits n = [Nat.digitChar n] := by
  unfold natDigits digitsF
  rw [if_pos h]

/-- Peeling the last digit off the decimal printer. -/
theorem natDigits_step (n : Nat) (h : 10 ≤ n) :
    natDigits n = natDigits (n / 10) ++ [Nat.digitChar (n % 10)] := by
  unfold natDigits
  rw [show digitsF (n + 1) n = digitsF n (n / 10) ++ [Nat.digitChar (n % 10)] from by
    rw [digitsF]; rw [if_neg (by omega)]]
  rw [digitsF_congr (n / 10) n (n / 10 + 1) (by omega) (by omega)]

/-- Two-digit numbers print with width two. -/
theorem natDigits_length2 (n : Nat) (h1 : 10 ≤ n) (h2 : n ≤ 99) :
    (natDigits n).length = 2 := by
  rw [natDigits_step n h1, natDigits_len1 (n / 10) (by omega)]
  simp

/-- Four-digit numbers print with width four. -/
theorem natDigits_length4 (n : Nat) (h1 : 1000 ≤ n) (h2 : n ≤ 9999) :
    (natDigits n).length = 4 := by
  rw [natDigits_step n (by omega), natDigits_step (n / 10) (by omega),
      natDigits_step (n / 10 / 10) (by omega),
      natDigits_len1 (n / 10 / 10 / 10) (by omega)]
  simp

/-- The zero-padded two-digit fields always have width two. -/
theorem pad2_length (n : Nat) (h : n ≤ 99) : (pad2 n).length = 2 := by
  unfold pad2
  by_cases hn : n < 10
  · rw [if_pos hn]
    rfl
  · rw [if_neg hn]
    exact natDigits_length2 n (by omega) h

/-- `strftime("%Y%m%dT%H%M%SZ")` has the fixed width 16 exactly when the
year prints with four digits; the clock fields are always padded. -/
theorem fmtZ_length (dt : PyDateTime) (h1 : 1000 ≤ dt.year) (h2 : dt.year ≤ 9999)
    (hm : dt.month ≤ 99) (hd : dt.day ≤ 99) (hh : dt.hour ≤ 99)
    (hmi : dt.minute ≤ 99) (hs : dt.second ≤ 99) :
    (fmtZ dt).length = 16 := by
  unfold fmtZ
  simp [natDigits_length4 dt.year h1 h2, pad2_length _ hm,
    pad2_length _ hd, pad2_length _ hh, pad2_length _ hmi, pad2_length _ hs]

/-- No month has more than 31 days. -/
theorem daysInMonth_le (y m : Nat) : daysInMonth y m ≤ 31 := by
  unfold daysInMonth
  split
  · split <;> omega
  · split <;> omega

/-- C1: the timestamp normaliser `zulu`.  Absent or empty input yields
`None`.  A parsed timestamp with no offset is not shifted: the output
formats exactly the parsed clock fields, merely stamped UTC.  A parsed
timestamp carrying an offset is converted to UTC: the output formats a
datetime denoting the same instant (equal `instantMin`, seconds and
microseconds kept) stamped UTC.  The claimed fixed width 16 of the output
however holds only when the formatted year has four digits (1000 ≤ year):
glibc `%Y` does not zero-pad smaller years, which
`zulu_not_fixed_width` exhibits. -/
theorem zulu_contract (c : Char) (cs : Str) (dt : PyDateTime)
    (hp : isoparse (c :: cs) = some dt) :
    (zulu none = .ok none ∧ zulu (some []) = .ok none) ∧
    (dt.tz = none →
      zulu (some (c :: cs)) = .ok (some (fmtZ ⟨dt.year, dt.month, dt.day, dt.hour,
        dt.minute, dt.second, dt.micro, some 0⟩)) ∧
      (1000 ≤ dt.year → (fmtZ ⟨dt.year, dt.month, dt.day, dt.hour,
        dt.minute, dt.second, dt.micro, some 0⟩).length = 16)) ∧
    (∀ off u, dt.tz = some off → astimezoneUTC dt = some u →
      zulu (some (c :: cs)) = .ok (some (fmtZ u)) ∧
      instantMin u = instantMin dt ∧ u.tz = some 0 ∧
      u.second = dt.second ∧ u.micro = dt.micro ∧
      (1000 ≤ u.year → (fmtZ u).length = 16)) := by
  obtain ⟨hv, hh, hmi, hs, hus⟩ := isoparse_valid hp
  have hdml := daysInMonth_le dt.year dt.month
  obtain ⟨hv1, hv2, hv3, hv4, hv5, hv6⟩ := hv
  refine ⟨⟨rfl, rfl⟩, ?_, ?_⟩
  · intro htz
    have hz := zulu_cons_parse hp
    rw [htz] at hz
    rw [if_pos rfl] at hz
    rw [astimezone_zero dt.year dt.month dt.day dt.hour dt.minute dt.second
      dt.micro hh hmi] at hz
    refine ⟨hz, ?_⟩
    intro hy
    exact fmtZ_length _ hy hv2 (show dt.month ≤ 99 by omega)
      (show dt.day ≤ 99 by omega) (show dt.hour ≤ 99 by omega)
      (show dt.minute ≤ 99 by omega) (show dt.second ≤ 99 by omega)
  · intro off u htz ha
    have hz := zulu_cons_parse hp
    rw [htz] at hz
    rw [if_neg (fun hx => Option.noConfusion hx)] at hz
    rw [ha] at hz
    obtain ⟨hiu, hutz, hsu, humu, hvu, hhu, hmiu⟩ :=
      astimezone_instant ⟨hv1, hv2, hv3, hv4, hv5, hv6⟩ hh hmi ha
    have hdmlu := daysInMonth_le u.year u.month
    obtain ⟨hu1, hu2, hu3, hu4, hu5, hu6⟩ := hvu
    refine ⟨hz, hiu, hutz, hsu, humu, ?_⟩
    intro hy
    exact fmtZ_length u hy hu2 (by omega) (by omega) (by omega) (by omega) (by omega)

set_option maxRecDepth 10000 in
/-- Witness for C1 on a concrete aware timestamp: 13:00 at UTC-4 becomes
17:00 UTC, same instant, full 16-character output. -/
theorem zulu_contract_witness :
    zulu (some ('2' :: "024-09-10T13:00:00-04:00".toList)) =
      .ok (some (fmtZ ⟨2024, 9, 10, 17, 0, 0, 0, some 0⟩)) ∧
    instantMin ⟨2024, 9, 10, 17, 0, 0, 0, some 0⟩ =
      instantMin ⟨2024, 9, 10, 13, 0, 0, 0, some (-240)⟩ ∧
    (fmtZ ⟨2024, 9, 10, 17, 0, 0, 0, some 0⟩).length = 16 := by
  have h := (zulu_contract '2' ("024-09-10T13:00:00-04:00".toList)
      ⟨2024, 9, 10, 13, 0, 0, 0, some (-240)⟩ (by decide)).2.2
      (-240) ⟨2024, 9, 10, 17, 0, 0, 0, some 0⟩ rfl (by decide)
  exact ⟨h.1, h.2.1, h.2.2.2.2.2 (by decide)⟩

set_option maxRecDepth 10000 in
/-- Counterexample to C1 as stated: a parseable, offset-carrying
timestamp in year 50 is normalised to `500101T000000Z`, which has 14
characters, not the claimed fixed width 16 — glibc `%Y` emits years
below 1000 without zero padding. -/
theorem zulu_not_fixed_width :
    zulu (some ("0050-01-01T00:00:00+00:00".toList)) =
      .ok (some ("500101T000000Z".toList)) ∧
    ("500101T000000Z".toList).length ≠ 16 := by
  constructor
  · decide
  · decide

set_option maxRecDepth 10000 in
/-- An offset with 60 minutes is rejected at parse time
(`_parse_tzstr` raises `Invalid minutes in time zone offset`), so
`zulu` fails rather than normalising such an input. -/
theorem zulu_offset_range_err :
    zulu (some ("2024-01-01T00:00:00+00:60".toList)) = .error () := by decide
